import Mathlib

/-!
Verification of the InkyCal event reconciliation and change-detection pipeline
(`src/inkycal/main.py`), shallowly embedded in Lean 4.

Modelling conventions, used consistently below:

* Python `datetime` instants (always timezone-aware in this code base) are
  modelled as `Int` epoch seconds; a fixed-offset timezone is an `Int` offset
  in minutes.  `timedelta` values are `Int` seconds.
* Python strings are Lean `String`s (lists of Unicode code points); character
  level primitives (`str.lower`, `str.strip`, `str.split`, the regex class
  `\w`) are modelled on the code-point level, faithful on the ASCII range,
  with the identity on other code points where Python applies locale-free
  Unicode tables (each model carries a doc comment saying exactly what is
  abstracted).
* External library collaborators (`hashlib.sha256`, `json.dumps`,
  `datetime.isoformat`, Unicode NFKC) are modelled by executable Lean
  functions that preserve the interface properties the pipeline relies on
  (determinism, key-sorted serialization, injectivity); see their doc
  comments.
-/

namespace Inkycal

/-! ### Character-level models of Python text primitives -/

/-- Model of Python `str` whitespace membership as used by `str.strip()` and
`str.split()` with no arguments: the ASCII whitespace characters
(space, tab, newline, vertical tab, form feed, carriage return).  Exotic
Unicode whitespace is abstracted away. -/
def pySpaceChar (c : Char) : Bool :=
  decide (c.toNat = 32 ∨ c.toNat = 9 ∨ c.toNat = 10 ∨ c.toNat = 11 ∨
    c.toNat = 12 ∨ c.toNat = 13)

/-- Model of the regex class `\w` (with `re.UNICODE`) used in
`_fingerprint_text`: alphanumeric or underscore.  Faithful on ASCII
(digits, latin letters, underscore); non-ASCII word characters are
abstracted away. -/
def isWordChar (c : Char) : Bool :=
  decide ((48 ≤ c.toNat ∧ c.toNat ≤ 57) ∨ (65 ≤ c.toNat ∧ c.toNat ≤ 90) ∨
    (97 ≤ c.toNat ∧ c.toNat ≤ 122) ∨ c.toNat = 95)

/-- Model of per-character lowercasing (`str.lower`, and also of
`str.casefold`, which coincides with `lower` on ASCII): maps `A`–`Z` to
`a`–`z` and leaves every other code point unchanged. -/
def pyLowerChar (c : Char) : Char :=
  if h : 65 ≤ c.toNat ∧ c.toNat ≤ 90 then
    Char.ofNatAux (c.toNat + 32) (Or.inl (by omega))
  else c

theorem toNat_ofNatAux (n : Nat) (h : n.isValidChar) : (Char.ofNatAux n h).toNat = n := by
  simp [Char.ofNatAux, Char.toNat, UInt32.toNat, BitVec.toNat_ofNatLt]

theorem char_eq_of_toNat_eq {c d : Char} (h : c.toNat = d.toNat) : c = d := by
  cases c with
  | mk v1 h1 =>
    cases d with
    | mk v2 h2 =>
      cases v1; cases v2
      simp only [Char.toNat, UInt32.toNat] at h
      congr 2
      exact BitVec.toNat_injective h

theorem toNat_pyLowerChar (c : Char) :
    (pyLowerChar c).toNat =
      if 65 ≤ c.toNat ∧ c.toNat ≤ 90 then c.toNat + 32 else c.toNat := by
  by_cases h : 65 ≤ c.toNat ∧ c.toNat ≤ 90
  · simp [pyLowerChar, h, toNat_ofNatAux]
  · simp [pyLowerChar, h]

theorem pyLowerChar_idem (c : Char) : pyLowerChar (pyLowerChar c) = pyLowerChar c := by
  apply char_eq_of_toNat_eq
  simp only [toNat_pyLowerChar]
  split_ifs <;> omega

theorem pyLowerChar_not_space {c : Char} (h : pySpaceChar c = false) :
    pySpaceChar (pyLowerChar c) = false := by
  simp only [pySpaceChar, decide_eq_false_iff_not] at h ⊢
  rw [toNat_pyLowerChar]
  split <;> omega

theorem isWordChar_not_space {c : Char} (h : isWordChar c = true) :
    pySpaceChar c = false := by
  simp only [isWordChar, decide_eq_true_eq] at h
  simp only [pySpaceChar, decide_eq_false_iff_not]
  omega

theorem pyLowerChar_fix {c : Char} (h : ¬(65 ≤ c.toNat ∧ c.toNat ≤ 90)) :
    pyLowerChar c = c := by
  simp [pyLowerChar, h]

theorem pyLowerChar_not_upper (c : Char) :
    ¬(65 ≤ (pyLowerChar c).toNat ∧ (pyLowerChar c).toNat ≤ 90) := by
  rw [toNat_pyLowerChar]
  split <;> omega

theorem isWordChar_pyLowerChar {c : Char} (h : isWordChar c = true) :
    isWordChar (pyLowerChar c) = true := by
  simp only [isWordChar, decide_eq_true_eq] at h ⊢
  rw [toNat_pyLowerChar]
  split <;> omega

/-! ### Lexicographic order on code-point lists

Python compares strings lexicographically by code point; Lean's built-in
`String` order is not kernel-reducible, so we use our own executable
comparison. -/

/-- Lexicographic (code-point) comparison of two character lists; models the
Python string comparison `s <= t`. -/
def listLexLe : List Char → List Char → Bool
  | [], _ => true
  | _ :: _, [] => false
  | a :: as, b :: bs =>
      if a.toNat < b.toNat then true
      else if b.toNat < a.toNat then false
      else listLexLe as bs

theorem listLexLe_refl (a : List Char) : listLexLe a a = true := by
  induction a with
  | nil => rfl
  | cons x xs ih => simp [listLexLe, ih]

theorem listLexLe_total (a b : List Char) (h : listLexLe a b = false) :
    listLexLe b a = true := by
  induction a generalizing b with
  | nil => simp [listLexLe] at h
  | cons x xs ih =>
      cases b with
      | nil => simp [listLexLe]
      | cons y ys =>
          by_cases h1 : x.toNat < y.toNat
          · simp [listLexLe, h1] at h
          · by_cases h2 : y.toNat < x.toNat
            · simp [listLexLe, h2]
            · simp only [listLexLe, if_neg h1, if_neg h2] at h
              simp only [listLexLe, if_neg h1, if_neg h2]
              exact ih _ h

theorem listLexLe_trans {a b c : List Char} (hab : listLexLe a b = true)
    (hbc : listLexLe b c = true) : listLexLe a c = true := by
  induction a generalizing b c with
  | nil => simp [listLexLe]
  | cons x xs ih =>
      cases b with
      | nil => simp [listLexLe] at hab
      | cons y ys =>
          cases c with
          | nil => simp [listLexLe] at hbc
          | cons z zs =>
              simp only [listLexLe] at hab hbc ⊢
              by_cases h1 : x.toNat < y.toNat
              · by_cases h2 : y.toNat < z.toNat
                · simp [show x.toNat < z.toNat by omega]
                · by_cases h3 : z.toNat < y.toNat
                  · simp [h2, h3] at hbc
                  · simp [show x.toNat < z.toNat by omega]
              · by_cases h4 : y.toNat < x.toNat
                · simp [h1, h4] at hab
                · by_cases h2 : y.toNat < z.toNat
                  · simp [show x.toNat < z.toNat by omega]
                  · by_cases h3 : z.toNat < y.toNat
                    · simp [h2, h3] at hbc
                    · have hxz : ¬ x.toNat < z.toNat := by omega
                      have hzx : ¬ z.toNat < x.toNat := by omega
                      simp only [if_neg h1, if_neg h4] at hab
                      simp only [if_neg h2, if_neg h3] at hbc
                      simp only [if_neg hxz, if_neg hzx]
                      exact ih hab hbc

/-! ### Decimal rendering of integers

Executable (kernel-reducible) decimal rendering, used by the models of
`datetime.isoformat` and `json.dumps`; its injectivity is established through
an explicit base-10 valuation. -/

/-- Fuel-based helper: big-endian decimal digits of `n` (empty for 0). -/
def natReprAux : Nat → Nat → List Char
  | 0, _ => []
  | fuel + 1, n =>
      if n = 0 then [] else natReprAux fuel (n / 10) ++ [Nat.digitChar (n % 10)]

/-- Big-endian decimal rendering of a natural number, as Python `str(n)`. -/
def natRepr (n : Nat) : List Char := if n = 0 then ['0'] else natReprAux n n

/-- Base-10 valuation of a big-endian digit-character list (left inverse of
`natRepr`). -/
def decimalVal (l : List Char) : Nat :=
  l.foldl (fun acc c => 10 * acc + (c.toNat - 48)) 0

theorem decimalVal_append_digit (A : List Char) (d : Char) :
    decimalVal (A ++ [d]) = 10 * decimalVal A + (d.toNat - 48) := by
  simp [decimalVal, List.foldl_append]

theorem digitChar_toNat {d : Nat} (h : d < 10) : (Nat.digitChar d).toNat = 48 + d := by
  interval_cases d <;> rfl

theorem foldl_decimal_natReprAux (fuel : Nat) :
    ∀ n acc, n ≤ fuel →
      (natReprAux fuel n).foldl (fun acc c => 10 * acc + (c.toNat - 48)) acc =
        acc * 10 ^ (natReprAux fuel n).length + n := by
  induction fuel with
  | zero =>
      intro n acc h
      have : n = 0 := by omega
      simp [natReprAux, this]
  | succ fuel ih =>
      intro n acc h
      by_cases hn : n = 0
      · simp [natReprAux, hn]
      · have hdiv : n / 10 ≤ fuel := by
          have := Nat.div_lt_self (Nat.pos_of_ne_zero hn) (by norm_num : (1:Nat) < 10)
          omega
        simp only [natReprAux, if_neg hn, List.foldl_append, List.length_append,
          List.length_cons, List.length_nil, Nat.zero_add]
        rw [ih (n / 10) acc hdiv]
        simp only [List.foldl_cons, List.foldl_nil]
        rw [digitChar_toNat (Nat.mod_lt n (by norm_num))]
        have h10 : 10 * (acc * 10 ^ (natReprAux fuel (n / 10)).length) =
            acc * 10 ^ ((natReprAux fuel (n / 10)).length + 1) := by
          rw [pow_succ]; ring
        omega

theorem decimalVal_natRepr (n : Nat) : decimalVal (natRepr n) = n := by
  by_cases hn : n = 0
  · simp [natRepr, hn, decimalVal]
  · simp only [natRepr, if_neg hn, decimalVal]
    rw [foldl_decimal_natReprAux n n 0 le_rfl]
    simp

theorem natRepr_injective {m n : Nat} (h : natRepr m = natRepr n) : m = n := by
  have := decimalVal_natRepr m
  rw [h, decimalVal_natRepr] at this
  omega

/-- Decimal rendering of an integer, as Python `str(i)`. -/
def intRepr (i : Int) : List Char :=
  if i < 0 then '-' :: natRepr i.natAbs else natRepr i.toNat

theorem natRepr_head_digit (n : Nat) :
    ∃ c t, natRepr n = c :: t ∧ 48 ≤ c.toNat ∧ c.toNat ≤ 57 := by
  by_cases hn : n = 0
  · exact ⟨'0', [], by simp [natRepr, hn], by simp, by simp⟩
  · simp only [natRepr, if_neg hn]
    cases hfe : natReprAux n n with
    | nil =>
        exfalso
        have := decimalVal_natRepr n
        simp [natRepr, if_neg hn, hfe, decimalVal] at this
        exact hn this.symm
    | cons c t =>
        refine ⟨c, t, rfl, ?_⟩
        have hmem : c ∈ natReprAux n n := by rw [hfe]; exact List.mem_cons_self ..
        have : ∀ fuel m, m ≤ fuel → ∀ d ∈ natReprAux fuel m,
            48 ≤ d.toNat ∧ d.toNat ≤ 57 := by
          intro fuel
          induction fuel with
          | zero => intro m hm d hd; simp [natReprAux, show m = 0 by omega] at hd
          | succ fuel ih =>
              intro m hm d hd
              by_cases hm0 : m = 0
              · simp [natReprAux, hm0] at hd
              · simp only [natReprAux, if_neg hm0, List.mem_append,
                  List.mem_singleton] at hd
                rcases hd with hd | hd
                · exact ih (m / 10) (by
                    have := Nat.div_lt_self (Nat.pos_of_ne_zero hm0)
                      (by norm_num : (1:Nat) < 10)
                    omega) d hd
                · subst hd
                  rw [digitChar_toNat (Nat.mod_lt m (by norm_num))]
                  omega
        exact this n n le_rfl c hmem

theorem intRepr_injective {i j : Int} (h : intRepr i = intRepr j) : i = j := by
  unfold intRepr at h
  by_cases hi : i < 0 <;> by_cases hj : j < 0
  · simp only [if_pos hi, if_pos hj, List.cons.injEq] at h
    have := natRepr_injective h.2
    omega
  · simp only [if_pos hi, if_neg hj] at h
    obtain ⟨c, t, hct, hlo, _⟩ := natRepr_head_digit j.toNat
    rw [hct] at h
    have hc : ('-').toNat = c.toNat := congrArg Char.toNat (List.head_eq_of_cons_eq h)
    have h45 : ('-').toNat = 45 := by decide
    omega
  · simp only [if_neg hi, if_pos hj] at h
    obtain ⟨c, t, hct, hlo, _⟩ := natRepr_head_digit i.toNat
    rw [hct] at h
    have hc : c.toNat = ('-').toNat := congrArg Char.toNat (List.head_eq_of_cons_eq h)
    have h45 : ('-').toNat = 45 := by decide
    omega
  · simp only [if_neg hi, if_neg hj] at h
    have := natRepr_injective h
    omega

/-! ### Normalization and fingerprinting (`_normalize_text`, `_fingerprint_text`) -/

/-- Model of `str.strip()`: remove leading and trailing whitespace. -/
def pyStripChars (l : List Char) : List Char :=
  ((l.dropWhile pySpaceChar).reverse.dropWhile pySpaceChar).reverse

/-- Helper for `str.split()`: walks the list keeping the (reversed) current
word in the accumulator. -/
def pySplitAux : List Char → List Char → List (List Char)
  | [], acc => if acc = [] then [] else [acc.reverse]
  | c :: cs, acc =>
      if pySpaceChar c then
        if acc = [] then pySplitAux cs [] else acc.reverse :: pySplitAux cs []
      else pySplitAux cs (c :: acc)

/-- Model of `str.split()` with no separator: maximal whitespace runs
delimit words; no empty words are produced. -/
def pySplit (l : List Char) : List (List Char) := pySplitAux l []

/-- Model of `sep.join(words)`. -/
def joinSep (sep : List Char) : List (List Char) → List Char
  | [] => []
  | [w] => w
  | w :: ws => w ++ sep ++ joinSep sep ws

/-- Model of `_normalize_text`: empty/None input gives `""`; otherwise
`" ".join(value.strip().lower().split())`. -/
def normalize_text (v : Option String) : String :=
  match v with
  | none => ""
  | some s =>
      if s = "" then ""
      else String.mk (joinSep [' '] (pySplit ((pyStripChars s.data).map pyLowerChar)))

/-- Model of `_fingerprint_text`:
`re.sub(r"[^\w]", "", unicodedata.normalize("NFKC", _normalize_text(value)).casefold())`.
NFKC is modelled as the identity (it is the identity on the modelled ASCII
repertoire) and `casefold` as per-character ASCII lowercasing, as in
`pyLowerChar`. -/
def fingerprint_text (v : Option String) : String :=
  String.mk (((normalize_text v).data.map pyLowerChar).filter isWordChar)

theorem string_mk_data (s : String) : String.mk s.data = s := by
  cases s; rfl

theorem dropWhile_eq_self_of_not {p : Char → Bool} {l : List Char}
    (h : ∀ c ∈ l, p c = false) : l.dropWhile p = l := by
  cases l with
  | nil => rfl
  | cons c cs =>
      rw [List.dropWhile_cons_of_neg]
      simp [h c (List.mem_cons_self ..)]

theorem pyStripChars_eq_self_of_not {l : List Char}
    (h : ∀ c ∈ l, pySpaceChar c = false) : pyStripChars l = l := by
  unfold pyStripChars
  rw [dropWhile_eq_self_of_not h, dropWhile_eq_self_of_not (by
    intro c hc
    exact h c (List.mem_reverse.mp hc))]
  simp

theorem map_eq_self_of_fix {f : Char → Char} {l : List Char}
    (h : ∀ c ∈ l, f c = c) : l.map f = l := by
  induction l with
  | nil => rfl
  | cons c cs ih =>
      simp only [List.map_cons, h c (List.mem_cons_self ..), List.cons.injEq, true_and]
      exact ih fun d hd => h d (List.mem_cons_of_mem _ hd)

theorem filter_eq_self_of_all {p : Char → Bool} {l : List Char}
    (h : ∀ c ∈ l, p c = true) : l.filter p = l := by
  induction l with
  | nil => rfl
  | cons c cs ih =>
      rw [List.filter_cons_of_pos (h c (List.mem_cons_self ..))]
      rw [ih fun d hd => h d (List.mem_cons_of_mem _ hd)]

theorem pySplitAux_no_space {l : List Char} (acc : List Char)
    (h : ∀ c ∈ l, pySpaceChar c = false) :
    pySplitAux l acc =
      if acc = [] ∧ l = [] then [] else [acc.reverse ++ l] := by
  induction l generalizing acc with
  | nil =>
      by_cases ha : acc = [] <;> simp [pySplitAux, ha]
  | cons c cs ih =>
      rw [pySplitAux, if_neg (by simp [h c (List.mem_cons_self ..)])]
      rw [ih (c :: acc) fun d hd => h d (List.mem_cons_of_mem _ hd)]
      simp

theorem fingerprint_chars (v : Option String) :
    ∀ c ∈ (fingerprint_text v).data, isWordChar c = true ∧ pyLowerChar c = c := by
  intro c hc
  simp only [fingerprint_text] at hc
  have hw : isWordChar c = true := List.of_mem_filter hc
  have hm : c ∈ (normalize_text v).data.map pyLowerChar := List.mem_of_mem_filter hc
  obtain ⟨d, _, hd⟩ := List.mem_map.mp hm
  refine ⟨hw, ?_⟩
  rw [← hd, pyLowerChar_idem]

theorem fingerprint_fixed {y : String}
    (h : ∀ c ∈ y.data, isWordChar c = true ∧ pyLowerChar c = c) :
    fingerprint_text (some y) = y := by
  by_cases hy : y = ""
  · subst hy; rfl
  · have hnotspace : ∀ c ∈ y.data, pySpaceChar c = false := by
      intro c hc
      exact isWordChar_not_space (h c hc).1
    have hfix : ∀ c ∈ y.data, pyLowerChar c = c := fun c hc => (h c hc).2
    have hword : ∀ c ∈ y.data, isWordChar c = true := fun c hc => (h c hc).1
    have hdata : y.data ≠ [] := by
      intro hd
      apply hy
      rw [← string_mk_data y, hd]
    have hnorm : normalize_text (some y) = y := by
      simp only [normalize_text, if_neg hy]
      rw [pyStripChars_eq_self_of_not hnotspace, map_eq_self_of_fix hfix]
      unfold pySplit
      rw [pySplitAux_no_space [] hnotspace, if_neg (by simp [hdata])]
      simp only [List.reverse_nil, List.nil_append]
      rw [joinSep]
    simp only [fingerprint_text, hnorm]
    rw [map_eq_self_of_fix hfix, filter_eq_self_of_all hword]

/-- C9: fingerprinting is idempotent — fingerprinting the fingerprint of any
text (including `None` and the empty string) returns the fingerprint
unchanged, so already-fingerprinted input is a fixed point. -/
theorem c9_fingerprint_idempotent (x : Option String) :
    fingerprint_text (some (fingerprint_text x)) = fingerprint_text x :=
  fingerprint_fixed (fingerprint_chars x)

/-! ### The Event model (`models.Event`)

Timestamps are epoch-second instants (`Int`); Python compares timezone-aware
datetimes by instant, which this mirrors. -/

structure Event where
  source : String
  title : String
  start : Int
  «end» : Int
  all_day : Bool := false
  location : Option String := none
  travel_time_text : Option String := none
  weather_icon : Option String := none
  weather_text : Option String := none
  weather_temperature_f : Option Int := none
  weather_end_icon : Option String := none
  weather_end_text : Option String := none
  weather_end_temperature_f : Option Int := none
deriving DecidableEq, Repr, Inhabited

/-- Python truthiness of an `Optional[str]`: `None` and `""` are falsy. -/
def pyTruthy (v : Option String) : Bool :=
  match v with
  | none => false
  | some s => s ≠ ""

/-- Model of naive `datetime.isoformat()` on a timezone-aware instant, as used
by `_dedupe_events` base keys: an injective, deterministic rendering of the
instant (the calendar formatting of the external datetime library is
abstracted; the event's timezone attachment is folded into the instant). -/
def pyIsoformat (t : Int) : String := String.mk (intRepr t)

theorem string_mk_inj {a b : List Char} (h : String.mk a = String.mk b) : a = b :=
  congrArg String.data h

theorem pyIsoformat_injective {s t : Int} (h : pyIsoformat s = pyIsoformat t) : s = t :=
  intRepr_injective (string_mk_inj h)

/-! ### Stable sorting (model of Python `sorted` / `list.sort`) -/

/-- Insert `a` in front of the first element `b` with `le a b`; used from the
right end of the list, this reproduces the stable order of Python sorts. -/
def insertLe {α : Type} (le : α → α → Bool) (a : α) : List α → List α
  | [] => [a]
  | b :: l => if le a b then a :: b :: l else b :: insertLe le a l

/-- Stable sort by the boolean comparison `le`; models Python `sorted(l, key=...)`
where `le` compares the keys. -/
def pySorted {α : Type} (le : α → α → Bool) (l : List α) : List α :=
  l.foldr (insertLe le) []

theorem perm_insertLe {α : Type} (le : α → α → Bool) (a : α) (l : List α) :
    (insertLe le a l).Perm (a :: l) := by
  induction l with
  | nil => rfl
  | cons b t ih =>
      rw [insertLe]
      split
      · rfl
      · exact (ih.cons b).trans (List.Perm.swap a b t)

theorem perm_pySorted {α : Type} (le : α → α → Bool) (l : List α) :
    (pySorted le l).Perm l := by
  induction l with
  | nil => rfl
  | cons a t ih =>
      exact ((perm_insertLe le a (pySorted le t)).trans (ih.cons a))

theorem mem_insertLe {α : Type} {le : α → α → Bool} {a x : α} {l : List α} :
    x ∈ insertLe le a l ↔ x = a ∨ x ∈ l := by
  rw [(perm_insertLe le a l).mem_iff]
  simp

theorem pairwise_insertLe {α : Type} {le : α → α → Bool}
    (htot : ∀ a b : α, le a b = true ∨ le b a = true)
    (htrans : ∀ a b c : α, le a b = true → le b c = true → le a c = true)
    {a : α} {l : List α} (h : l.Pairwise (fun x y => le x y = true)) :
    (insertLe le a l).Pairwise (fun x y => le x y = true) := by
  induction l with
  | nil => simp [insertLe]
  | cons b t ih =>
      rw [insertLe]
      rcases List.pairwise_cons.mp h with ⟨hb, ht⟩
      split
      · rename_i hab
        refine List.pairwise_cons.mpr ⟨?_, h⟩
        intro x hx
        rcases List.mem_cons.mp hx with hx | hx
        · subst hx; exact hab
        · exact htrans a b x hab (hb x hx)
      · rename_i hab
        have hba : le b a = true := by
          rcases htot a b with h1 | h1
          · exact absurd h1 hab
          · exact h1
        refine List.pairwise_cons.mpr ⟨?_, ih ht⟩
        intro x hx
        rcases mem_insertLe.mp hx with hx | hx
        · subst hx; exact hba
        · exact hb x hx

theorem pairwise_pySorted {α : Type} {le : α → α → Bool}
    (htot : ∀ a b : α, le a b = true ∨ le b a = true)
    (htrans : ∀ a b c : α, le a b = true → le b c = true → le a c = true)
    (l : List α) : (pySorted le l).Pairwise (fun x y => le x y = true) := by
  induction l with
  | nil => exact List.Pairwise.nil
  | cons a t ih => exact pairwise_insertLe htot htrans ih

/-! ### Sort keys and quality scores (`_event_sort_key`, `_event_quality_score`) -/

/-- Lexicographic comparison of `(Nat, Int, List Char)` triples, as Python
compares the sort-key tuples. -/
def tripleLe (a b : Nat × Int × List Char) : Bool :=
  if a.1 < b.1 then true
  else if b.1 < a.1 then false
  else if a.2.1 < b.2.1 then true
  else if b.2.1 < a.2.1 then false
  else listLexLe a.2.2 b.2.2

theorem tripleLe_false_total {a b : Nat × Int × List Char}
    (h : tripleLe a b = false) : tripleLe b a = true := by
  unfold tripleLe at h ⊢
  by_cases h1 : a.1 < b.1
  · simp [h1] at h
  · by_cases h2 : b.1 < a.1
    · simp [h2]
    · simp only [if_neg h1, if_neg h2] at h
      simp only [if_neg h2, if_neg h1]
      by_cases h3 : a.2.1 < b.2.1
      · simp [h3] at h
      · by_cases h4 : b.2.1 < a.2.1
        · simp [h4]
        · simp only [if_neg h3, if_neg h4] at h
          simp only [if_neg h4, if_neg h3]
          exact listLexLe_total _ _ h

theorem tripleLe_total (a b : Nat × Int × List Char) :
    tripleLe a b = true ∨ tripleLe b a = true := by
  cases hab : tripleLe a b
  · exact Or.inr (tripleLe_false_total hab)
  · exact Or.inl rfl

theorem tripleLe_trans (a b c : Nat × Int × List Char)
    (hab : tripleLe a b = true) (hbc : tripleLe b c = true) : tripleLe a c = true := by
  unfold tripleLe at hab hbc ⊢
  by_cases h1 : a.1 < b.1
  · by_cases h2 : b.1 < c.1
    · simp [show a.1 < c.1 by omega]
    · by_cases h3 : c.1 < b.1
      · simp [h2, h3] at hbc
      · simp [show a.1 < c.1 by omega]
  · by_cases h4 : b.1 < a.1
    · simp [h1, h4] at hab
    · by_cases h2 : b.1 < c.1
      · simp [show a.1 < c.1 by omega]
      · by_cases h3 : c.1 < b.1
        · simp [h2, h3] at hbc
        · have hac1 : ¬ a.1 < c.1 := by omega
          have hca1 : ¬ c.1 < a.1 := by omega
          simp only [if_neg h1, if_neg h4] at hab
          simp only [if_neg h2, if_neg h3] at hbc
          simp only [if_neg hac1, if_neg hca1]
          by_cases g1 : a.2.1 < b.2.1
          · by_cases g2 : b.2.1 < c.2.1
            · simp [show a.2.1 < c.2.1 by omega]
            · by_cases g3 : c.2.1 < b.2.1
              · simp [g2, g3] at hbc
              · simp [show a.2.1 < c.2.1 by omega]
          · by_cases g4 : b.2.1 < a.2.1
            · simp [g1, g4] at hab
            · by_cases g2 : b.2.1 < c.2.1
              · simp [show a.2.1 < c.2.1 by omega]
              · by_cases g3 : c.2.1 < b.2.1
                · simp [g2, g3] at hbc
                · have hac2 : ¬ a.2.1 < c.2.1 := by omega
                  have hca2 : ¬ c.2.1 < a.2.1 := by omega
                  simp only [if_neg g1, if_neg g4] at hab
                  simp only [if_neg g2, if_neg g3] at hbc
                  simp only [if_neg hac2, if_neg hca2]
                  exact listLexLe_trans hab hbc

/-- `e.title.lower()` on the code-point level. -/
def titleLowerChars (e : Event) : List Char := e.title.data.map pyLowerChar

/-- Model of `_event_sort_key(e) = (0 if e.all_day else 1, e.start, e.title.lower())`. -/
def event_sort_key (e : Event) : Nat × Int × List Char :=
  (if e.all_day then 0 else 1, e.start, titleLowerChars e)

/-- Comparison of two events by their sort keys (Python tuple `<=`). -/
def event_sort_le (a b : Event) : Bool := tripleLe (event_sort_key a) (event_sort_key b)

theorem event_sort_le_total (a b : Event) :
    event_sort_le a b = true ∨ event_sort_le b a = true :=
  tripleLe_total ..

theorem event_sort_le_trans (a b c : Event) (hab : event_sort_le a b = true)
    (hbc : event_sort_le b c = true) : event_sort_le a c = true :=
  tripleLe_trans _ _ _ hab hbc

/-- Model of `_event_quality_score(e) =
(1 if fingerprint(e.location) else 0, len(e.title.strip()))`. -/
def event_quality_score (e : Event) : Nat × Nat :=
  (if fingerprint_text e.location ≠ "" then 1 else 0, (pyStripChars e.title.data).length)

/-- Python strict tuple comparison `a > b` on quality scores. -/
def score_gt (a b : Nat × Nat) : Bool :=
  decide (b.1 < a.1 ∨ (a.1 = b.1 ∧ b.2 < a.2))

/-! ### The deduplication engine (`_dedupe_events`) -/

/-- Base key of an event:
`(fingerprint(title), start.isoformat(), end.isoformat(), bool(all_day))`. -/
def baseKey (e : Event) : String × String × String × Bool :=
  (fingerprint_text (some e.title), pyIsoformat e.start, pyIsoformat e.«end», e.all_day)

/-- The `seen_by_base_key` dictionary: association list from base keys to the
positions (into the deduped list) of the representatives with that key. -/
def seenLookup (seen : List ((String × String × String × Bool) × List Nat))
    (k : String × String × String × Bool) : List Nat :=
  match seen with
  | [] => []
  | p :: rest => if p.1 = k then p.2 else seenLookup rest k

/-- `seen.setdefault(k, []).append(idx)`. -/
def seenAppend (seen : List ((String × String × String × Bool) × List Nat))
    (k : String × String × String × Bool) (idx : Nat) :
    List ((String × String × String × Bool) × List Nat) :=
  match seen with
  | [] => [(k, [idx])]
  | p :: rest => if p.1 = k then (p.1, p.2 ++ [idx]) :: rest else p :: seenAppend rest k idx

/-- The inner scan of `_dedupe_events`: find the first recorded position whose
representative has a compatible location fingerprint (equal fingerprints, or
either one empty).  Out-of-range positions read `default`; the positions the
algorithm records are always in range (established by the invariants below). -/
def findDuplicate (deduped : List Event) (locFp : String) : List Nat → Option Nat
  | [] => none
  | idx :: rest =>
      if locFp = fingerprint_text (deduped.getD idx default).location ∨ locFp = "" ∨
          fingerprint_text (deduped.getD idx default).location = "" then some idx
      else findDuplicate deduped locFp rest

/-- The main loop of `_dedupe_events` over the sorted input. -/
def dedupeLoop : List Event → List Event →
    List ((String × String × String × Bool) × List Nat) → List Event
  | [], deduped, _ => deduped
  | e :: rest, deduped, seen =>
      match findDuplicate deduped (fingerprint_text e.location)
          (seenLookup seen (baseKey e)) with
      | some idx =>
          if score_gt (event_quality_score e) (event_quality_score (deduped.getD idx default))
          then dedupeLoop rest (deduped.set idx e) seen
          else dedupeLoop rest deduped seen
      | none => dedupeLoop rest (deduped ++ [e]) (seenAppend seen (baseKey e) deduped.length)

/-- Model of `_dedupe_events`. -/
def dedupe_events (events : List Event) : List Event :=
  dedupeLoop (pySorted event_sort_le events) [] []

/-! ### Order-independence of deduplication on a pair (C4) -/

theorem listLexLe_antisymm {a b : List Char} (hab : listLexLe a b = true)
    (hba : listLexLe b a = true) : a = b := by
  induction a generalizing b with
  | nil =>
      cases b with
      | nil => rfl
      | cons y ys => simp [listLexLe] at hba
  | cons x xs ih =>
      cases b with
      | nil => simp [listLexLe] at hab
      | cons y ys =>
          by_cases h1 : x.toNat < y.toNat
          · simp [listLexLe, show ¬ y.toNat < x.toNat by omega, h1] at hba
          · by_cases h2 : y.toNat < x.toNat
            · simp [listLexLe, h1, h2] at hab
            · simp only [listLexLe, if_neg h1, if_neg h2] at hab
              simp only [listLexLe, if_neg h2, if_neg h1] at hba
              rw [char_eq_of_toNat_eq (by omega : x.toNat = y.toNat), ih hab hba]

theorem tripleLe_antisymm {a b : Nat × Int × List Char} (hab : tripleLe a b = true)
    (hba : tripleLe b a = true) : a = b := by
  unfold tripleLe at hab hba
  by_cases h1 : a.1 < b.1
  · simp [show ¬ b.1 < a.1 by omega, h1] at hba
  · by_cases h2 : b.1 < a.1
    · simp [h1, h2] at hab
    · simp only [if_neg h1, if_neg h2] at hab
      simp only [if_neg h2, if_neg h1] at hba
      by_cases h3 : a.2.1 < b.2.1
      · simp [show ¬ b.2.1 < a.2.1 by omega, h3] at hba
      · by_cases h4 : b.2.1 < a.2.1
        · simp [h3, h4] at hab
        · simp only [if_neg h3, if_neg h4] at hab
          simp only [if_neg h4, if_neg h3] at hba
          have e1 : a.1 = b.1 := by omega
          have e2 : a.2.1 = b.2.1 := by omega
          have e3 : a.2.2 = b.2.2 := listLexLe_antisymm hab hba
          exact Prod.ext e1 (Prod.ext e2 e3)

theorem score_gt_cases {s t : Nat × Nat} (h : s ≠ t) :
    score_gt s t = true ∨ score_gt t s = true := by
  simp only [score_gt, decide_eq_true_eq]
  have : s.1 ≠ t.1 ∨ s.2 ≠ t.2 := by
    by_contra hc
    push_neg at hc
    exact h (Prod.ext hc.1 hc.2)
  omega

theorem score_gt_asymm {s t : Nat × Nat} (h : score_gt s t = true) :
    score_gt t s = false := by
  simp only [score_gt, decide_eq_true_eq] at h
  simp only [score_gt, decide_eq_false_iff_not]
  omega

/-- Evaluation of the dedupe loop on a two-element work list whose elements are
candidate duplicates: the survivor is the quality-score winner, with the
first-processed element kept on a tie. -/
theorem dedupeLoop_pair (a b : Event) (hdup : baseKey a = baseKey b)
    (hcompat : fingerprint_text b.location = fingerprint_text a.location ∨
      fingerprint_text b.location = "" ∨ fingerprint_text a.location = "") :
    dedupeLoop [a, b] [] [] =
      if score_gt (event_quality_score b) (event_quality_score a) then [b] else [a] := by
  have h1 : dedupeLoop [a, b] [] [] =
      dedupeLoop [b] [a] [(baseKey a, [0])] := by
    simp [dedupeLoop, findDuplicate, seenLookup, seenAppend]
  rw [h1]
  have h2 : seenLookup [(baseKey a, [0])] (baseKey b) = [0] := by
    simp [seenLookup, hdup]
  have h3 : findDuplicate [a] (fingerprint_text b.location) [0] = some 0 := by
    simp only [findDuplicate, List.getD]
    rw [if_pos]
    simpa using hcompat
  simp only [dedupeLoop, h2, h3, show ([a].getD 0 default) = a from rfl]
  split
  · simp [dedupeLoop]
  · simp [dedupeLoop]

/-- Two-element stable sort evaluation. -/
theorem pySorted_pair {α : Type} (le : α → α → Bool) (a b : α) :
    pySorted le [a, b] = if le a b then [a, b] else [b, a] := by
  simp [pySorted, insertLe]

/-- C4 (counterexample): the claim fails as stated.  These two events are
candidate duplicates (equal base keys, both locations absent) that tie on the
quality score and on the sort key, differing only in `source`; deduplicating
`[a, b]` keeps `a` while `[b, a]` keeps `b`, so the surviving set depends on
arrival order, not only on the quality score. -/
theorem c4_counterexample :
    baseKey { source := "google", title := "X", start := 0, «end» := 3600 } =
        baseKey { source := "icloud", title := "X", start := 0, «end» := 3600 } ∧
    event_quality_score { source := "google", title := "X", start := 0, «end» := 3600 } =
        event_quality_score { source := "icloud", title := "X", start := 0, «end» := 3600 } ∧
    dedupe_events
        [{ source := "google", title := "X", start := 0, «end» := 3600 },
         { source := "icloud", title := "X", start := 0, «end» := 3600 }] ≠
      dedupe_events
        [{ source := "icloud", title := "X", start := 0, «end» := 3600 },
         { source := "google", title := "X", start := 0, «end» := 3600 }] := by
  refine ⟨by decide, by decide, by decide⟩

/-- C4 (amended): for two candidate duplicates (equal base keys,
location-compatible) that differ in sort key or in quality score,
deduplication of `[a, b]` and of `[b, a]` yields the same surviving list;
only a simultaneous tie of sort key and quality score makes the survivor
depend on arrival order. -/
theorem c4_dedupe_pair_order_independent (a b : Event)
    (hdup : baseKey a = baseKey b)
    (hcompat : fingerprint_text a.location = fingerprint_text b.location ∨
      fingerprint_text a.location = "" ∨ fingerprint_text b.location = "")
    (hne : event_sort_key a ≠ event_sort_key b ∨
      event_quality_score a ≠ event_quality_score b) :
    dedupe_events [a, b] = dedupe_events [b, a] := by
  unfold dedupe_events
  rw [pySorted_pair, pySorted_pair]
  by_cases hab : event_sort_le a b = true
  · by_cases hba : event_sort_le b a = true
    · -- sort keys tie: both orders are processed as given; scores must differ
      have hkey : event_sort_key a = event_sort_key b := tripleLe_antisymm hab hba
      have hscore : event_quality_score a ≠ event_quality_score b := by
        rcases hne with h | h
        · exact absurd hkey h
        · exact h
      rw [if_pos hab, if_pos hba]
      rw [dedupeLoop_pair a b hdup (by tauto), dedupeLoop_pair b a hdup.symm (by tauto)]
      rcases score_gt_cases hscore with h | h
      · rw [if_neg (by simp [score_gt_asymm h]), if_pos h]
      · rw [if_pos h, if_neg (by simp [score_gt_asymm h])]
    · -- a strictly before b: both inputs sort to [a, b]
      rw [if_pos hab, if_neg hba]
  · -- a strictly after b: both inputs sort to [b, a]
    have hba : event_sort_le b a = true := by
      cases h : event_sort_le a b
      · exact tripleLe_false_total h
      · exact absurd h hab
    rw [if_neg hab, if_pos hba]

/-- C4 (witness): the amended pair-order-independence theorem applied to the
richer/sparser pair from the repository's own dedupe test. -/
theorem c4_witness :
    dedupe_events
        [{ source := "google", title := " Team   Sync ", start := 0, «end» := 3600 },
         { source := "google", title := "team-sync", start := 0, «end» := 3600,
           location := some "HQ East" }] =
      dedupe_events
        [{ source := "google", title := "team-sync", start := 0, «end» := 3600,
           location := some "HQ East" },
         { source := "google", title := " Team   Sync ", start := 0, «end» := 3600 }] :=
  c4_dedupe_pair_order_independent _ _ (by decide) (by decide) (by decide)

/-! ### Partial sortedness of the dedupe output (C5) -/

/-- The coarse display key `(0 if all_day else 1, start)` — the part of the
sort key that is protected by the base key during quality replacements. -/
def event_coarse_key (e : Event) : Nat × Int := (if e.all_day then 0 else 1, e.start)

/-- Non-strict lexicographic order on coarse keys. -/
def pairLeP (a b : Nat × Int) : Prop := a.1 < b.1 ∨ (a.1 = b.1 ∧ a.2 ≤ b.2)

theorem event_sort_le_coarse {a b : Event} (h : event_sort_le a b = true) :
    pairLeP (event_coarse_key a) (event_coarse_key b) := by
  unfold event_sort_le tripleLe event_sort_key at h
  unfold pairLeP event_coarse_key
  dsimp only at h ⊢
  by_cases h1 : (if a.all_day then (0:Nat) else 1) < (if b.all_day then (0:Nat) else 1)
  · exact Or.inl h1
  · by_cases h2 : (if b.all_day then (0:Nat) else 1) < (if a.all_day then (0:Nat) else 1)
    · simp [h1, h2] at h
    · by_cases h3 : a.start < b.start
      · exact Or.inr ⟨by omega, by omega⟩
      · by_cases h4 : b.start < a.start
        · simp [h1, h2, h3, h4] at h
        · exact Or.inr ⟨by omega, by omega⟩

theorem baseKey_coarse {a b : Event} (h : baseKey a = baseKey b) :
    event_coarse_key a = event_coarse_key b := by
  have h2 : pyIsoformat a.start = pyIsoformat b.start := congrArg (fun k => k.2.1) h
  have h4 : a.all_day = b.all_day := congrArg (fun k => k.2.2.2) h
  unfold event_coarse_key
  rw [h4, pyIsoformat_injective h2]

theorem findDuplicate_mem {deduped : List Event} {fp : String} {l : List Nat} {idx : Nat}
    (h : findDuplicate deduped fp l = some idx) : idx ∈ l := by
  induction l with
  | nil => simp [findDuplicate] at h
  | cons i rest ih =>
      rw [findDuplicate] at h
      split at h
      · cases h
        exact List.mem_cons_self ..
      · exact List.mem_cons_of_mem _ (ih h)

theorem seenLookup_seenAppend (seen : List ((String × String × String × Bool) × List Nat))
    (k : String × String × String × Bool) (idx : Nat)
    (k' : String × String × String × Bool) :
    seenLookup (seenAppend seen k idx) k' =
      if k' = k then seenLookup seen k ++ [idx] else seenLookup seen k' := by
  induction seen with
  | nil =>
      simp only [seenAppend, seenLookup]
      by_cases h : k = k'
      · subst h; simp
      · rw [if_neg h, if_neg (fun hc : k' = k => h hc.symm)]
  | cons p rest ih =>
      simp only [seenAppend]
      by_cases h : p.1 = k
      · rw [if_pos h]
        simp only [seenLookup]
        by_cases h2 : p.1 = k'
        · have hk'k : k' = k := by rw [← h2]; exact h
          rw [if_pos h2, if_pos hk'k, if_pos h]
        · have hne : ¬ k' = k := fun hc => h2 (h.trans hc.symm)
          rw [if_neg h2, if_neg hne, if_neg h2]
      · rw [if_neg h]
        simp only [seenLookup, ih]
        by_cases h2 : p.1 = k'
        · have hne : ¬ k' = k := fun hc => h (h2.trans hc)
          rw [if_pos h2, if_neg hne, if_pos h2]
        · by_cases h3 : k' = k
          · rw [if_neg h2, if_pos h3, if_pos h3, if_neg h]
          · rw [if_neg h2, if_neg h3, if_neg h3, if_neg h2]

theorem list_set_eq_self {α : Type} {l : List α} {i : Nat} {x d : α}
    (h : l.getD i d = x) (hi : i < l.length) : l.set i x = l := by
  induction l generalizing i with
  | nil => simp at hi
  | cons a as ih =>
      cases i with
      | zero =>
          simp only [List.getD_cons_zero] at h
          simp [List.set, h]
      | succ n =>
          simp only [List.getD_cons_succ] at h
          simp only [List.set, List.cons.injEq, true_and]
          exact ih h (by simpa using hi)

theorem list_getD_append_lt {α : Type} {l t : List α} {i : Nat} {d : α}
    (h : i < l.length) : (l ++ t).getD i d = l.getD i d := by
  induction l generalizing i with
  | nil => simp at h
  | cons a as ih =>
      cases i with
      | zero => rfl
      | succ n =>
          simp only [List.cons_append, List.getD_cons_succ]
          exact ih (by simpa using h)

theorem list_getD_append_len {α : Type} (l : List α) (e d : α) :
    (l ++ [e]).getD l.length d = e := by
  induction l with
  | nil => rfl
  | cons a as ih => simp [ih]

theorem list_getD_set_ne {α : Type} {l : List α} {i j : Nat} {x d : α}
    (h : i ≠ j) : (l.set i x).getD j d = l.getD j d := by
  induction l generalizing i j with
  | nil => simp [List.set]
  | cons a as ih =>
      cases i with
      | zero =>
          cases j with
          | zero => exact absurd rfl h
          | succ m => rfl
      | succ n =>
          cases j with
          | zero => rfl
          | succ m =>
              simp only [List.set, List.getD_cons_succ]
              exact ih (by omega)

theorem list_getD_set_self {α : Type} {l : List α} {i : Nat} {x d : α}
    (h : i < l.length) : (l.set i x).getD i d = x := by
  induction l generalizing i with
  | nil => simp at h
  | cons a as ih =>
      cases i with
      | zero => rfl
      | succ n =>
          simp only [List.set, List.getD_cons_succ]
          exact ih (by simpa using h)

theorem list_map_getD {α β : Type} (f : α → β) (l : List α) (i : Nat) (d : α) :
    (l.map f).getD i (f d) = f (l.getD i d) := by
  induction l generalizing i with
  | nil => cases i <;> rfl
  | cons a as ih =>
      cases i with
      | zero => rfl
      | succ n => simp [ih n]

/-- Loop invariant for C5: processing pending events (sorted, and all of them
at or after everything already deduped) keeps the deduped list non-decreasing
in the coarse display key; quality replacements preserve it because a
replacement shares the base key, hence the coarse key, of the replaced
representative. -/
theorem dedupeLoop_coarse_pairwise (pending : List Event) :
    ∀ (deduped : List Event) (seen : List ((String × String × String × Bool) × List Nat)),
      pending.Pairwise (fun a b => event_sort_le a b = true) →
      ((deduped.map event_coarse_key).Pairwise pairLeP) →
      (∀ d ∈ deduped, ∀ p ∈ pending, event_sort_le d p = true) →
      (∀ k, ∀ idx ∈ seenLookup seen k, idx < deduped.length ∧
        baseKey (deduped.getD idx default) = k) →
      ((dedupeLoop pending deduped seen).map event_coarse_key).Pairwise pairLeP := by
  induction pending with
  | nil =>
      intro deduped seen _ h2 _ _
      simpa [dedupeLoop] using h2
  | cons e rest ih =>
      intro deduped seen h1 h2 h3 h4
      obtain ⟨h1head, h1rest⟩ := List.pairwise_cons.mp h1
      rw [dedupeLoop]
      cases hfd : findDuplicate deduped (fingerprint_text e.location)
          (seenLookup seen (baseKey e)) with
      | some idx =>
          obtain ⟨hlt, hbk⟩ := h4 (baseKey e) idx (findDuplicate_mem hfd)
          simp only []
          split
          · -- replacement: coarse keys of the deduped list are unchanged
            apply ih (deduped.set idx e) seen h1rest
            · have hck : event_coarse_key (deduped.getD idx default) = event_coarse_key e :=
                baseKey_coarse hbk
              have hmapset : (deduped.set idx e).map event_coarse_key =
                  deduped.map event_coarse_key := by
                rw [List.map_set]
                apply list_set_eq_self
                · rw [list_map_getD event_coarse_key deduped idx default]
                  exact hck
                · simpa using hlt
              rw [hmapset]
              exact h2
            · intro d hd p hp
              rcases List.mem_or_eq_of_mem_set hd with hd | hd
              · exact h3 d hd p (List.mem_cons_of_mem _ hp)
              · subst hd
                exact h1head p hp
            · intro k idx' hidx'
              obtain ⟨hlt', hbk'⟩ := h4 k idx' hidx'
              refine ⟨by simpa using hlt', ?_⟩
              by_cases hij : idx = idx'
              · subst hij
                rw [list_getD_set_self hlt']
                rw [← hbk', ← hbk]
              · rw [list_getD_set_ne hij]
                exact hbk'
          · -- incoming duplicate discarded
            apply ih deduped seen h1rest h2
            · intro d hd p hp
              exact h3 d hd p (List.mem_cons_of_mem _ hp)
            · exact h4
      | none =>
          simp only []
          apply ih (deduped ++ [e]) (seenAppend seen (baseKey e) deduped.length) h1rest
          · rw [List.map_append, List.pairwise_append]
            refine ⟨h2, by simp, ?_⟩
            intro x hx y hy
            simp only [List.map_cons, List.map_nil, List.mem_singleton] at hy
            subst hy
            obtain ⟨d, hd, hdx⟩ := List.mem_map.mp hx
            subst hdx
            exact event_sort_le_coarse (h3 d hd e (List.mem_cons_self ..))
          · intro d hd p hp
            rcases List.mem_append.mp hd with hd | hd
            · exact h3 d hd p (List.mem_cons_of_mem _ hp)
            · simp only [List.mem_singleton] at hd
              subst hd
              exact h1head p hp
          · intro k idx' hidx'
            rw [seenLookup_seenAppend] at hidx'
            by_cases hk : k = baseKey e
            · subst hk
              rw [if_pos rfl] at hidx'
              rcases List.mem_append.mp hidx' with hold | hnew
              · obtain ⟨hlt', hbk'⟩ := h4 (baseKey e) idx' hold
                refine ⟨by simp; omega, ?_⟩
                rw [list_getD_append_lt hlt']
                exact hbk'
              · simp only [List.mem_singleton] at hnew
                subst hnew
                refine ⟨by simp, ?_⟩
                rw [list_getD_append_len]
            · rw [if_neg hk] at hidx'
              obtain ⟨hlt', hbk'⟩ := h4 k idx' hidx'
              refine ⟨by simp; omega, ?_⟩
              rw [list_getD_append_lt hlt']
              exact hbk'

/-- C5 (counterexample): the dedupe output is not always sorted by the full
display key `(0 if all_day else 1, start, title.lower())`: a quality
replacement (richer location, shorter title) substitutes an event whose
lowercased title sorts after a later representative. -/
theorem c5_counterexample :
    ¬ (dedupe_events
        [{ source := "google", title := "!z", start := 0, «end» := 3600 },
         { source := "google", title := "a", start := 0, «end» := 3600 },
         { source := "google", title := "z", start := 0, «end» := 3600,
           location := some "HQ" }]).Pairwise
        (fun a b => event_sort_le a b = true) := by
  decide

/-- C5 (amended): the output of `_dedupe_events` is always non-decreasing in
the coarse display key `(0 if all_day else 1, start)`; full-key sortedness
(including `title.lower()`) can be broken by quality replacements
(counterexample above), since a replacement preserves the base key (hence
all-day flag and start) but may change the title. -/
theorem c5_dedupe_coarse_sorted (events : List Event) :
    ((dedupe_events events).map event_coarse_key).Pairwise pairLeP := by
  unfold dedupe_events
  apply dedupeLoop_coarse_pairwise
  · exact pairwise_pySorted event_sort_le_total event_sort_le_trans events
  · exact List.Pairwise.nil
  · intro d hd
    simp at hd
  · intro k idx hidx
    simp [seenLookup] at hidx

/-! ### All-day summarization (`_merge_all_day_events`) -/

/-- `str.strip()` on a string. -/
def pyStrip (s : String) : String := String.mk (pyStripChars s.data)

/-- Comparison of two titles by `str.lower`, the key function of
`sorted_titles.sort(key=str.lower)`. -/
def titleKeyLe (s t : String) : Bool :=
  listLexLe (s.data.map pyLowerChar) (t.data.map pyLowerChar)

/-- `" • ".join(titles)`. -/
def joinBullet (ts : List String) : String :=
  String.mk (joinSep " • ".data (ts.map String.data))

/-- Model of `_merge_all_day_events`. -/
def merge_all_day_events (events : List Event) : List Event :=
  match events.filter (fun e => e.all_day) with
  | [] => pySorted event_sort_le (events.filter (fun e => !e.all_day))
  | a :: as =>
      let sorted_titles := pySorted titleKeyLe
        (((a :: as).map (fun e => pyStrip e.title)).filter (fun t => t ≠ ""))
      let summary_title :=
        if sorted_titles = [] then "All-day events"
        else "All-day: " ++ joinBullet sorted_titles
      let merged : Event := {
        source := "merged"
        title := summary_title
        start := as.foldl (fun m e => min m e.start) a.start
        «end» := as.foldl (fun m e => max m e.«end») a.«end»
        all_day := true }
      merged :: pySorted event_sort_le (events.filter (fun e => !e.all_day))

theorem titleKeyLe_total (a b : String) : titleKeyLe a b = true ∨ titleKeyLe b a = true := by
  unfold titleKeyLe
  cases h : listLexLe (a.data.map pyLowerChar) (b.data.map pyLowerChar)
  · exact Or.inr (listLexLe_total _ _ h)
  · exact Or.inl rfl

theorem titleKeyLe_trans (a b c : String) (hab : titleKeyLe a b = true)
    (hbc : titleKeyLe b c = true) : titleKeyLe a c = true :=
  listLexLe_trans hab hbc

theorem foldl_min_le (l : List Int) (x : Int) :
    ∀ y, (y = x ∨ y ∈ l) → l.foldl min x ≤ y := by
  induction l generalizing x with
  | nil =>
      intro y hy
      rcases hy with hy | hy
      · simp [hy]
      · simp at hy
  | cons a t ih =>
      intro y hy
      simp only [List.foldl_cons]
      rcases hy with hy | hy
      · subst hy
        exact le_trans (ih (min y a) (min y a) (Or.inl rfl)) (min_le_left ..)
      · rcases List.mem_cons.mp hy with hy | hy
        · subst hy
          exact le_trans (ih (min x y) (min x y) (Or.inl rfl)) (min_le_right ..)
        · exact ih (min x a) y (Or.inr hy)

theorem foldl_min_mem (l : List Int) (x : Int) :
    l.foldl min x = x ∨ l.foldl min x ∈ l := by
  induction l generalizing x with
  | nil => exact Or.inl rfl
  | cons a t ih =>
      simp only [List.foldl_cons]
      rcases ih (min x a) with h | h
      · rcases min_choice x a with hc | hc
        · exact Or.inl (h.trans hc)
        · exact Or.inr (by rw [h, hc]; exact List.mem_cons_self ..)
      · exact Or.inr (List.mem_cons_of_mem _ h)

theorem foldl_max_le (l : List Int) (x : Int) :
    ∀ y, (y = x ∨ y ∈ l) → y ≤ l.foldl max x := by
  induction l generalizing x with
  | nil =>
      intro y hy
      rcases hy with hy | hy
      · simp [hy]
      · simp at hy
  | cons a t ih =>
      intro y hy
      simp only [List.foldl_cons]
      rcases hy with hy | hy
      · subst hy
        exact le_trans (le_max_left ..) (ih (max y a) (max y a) (Or.inl rfl))
      · rcases List.mem_cons.mp hy with hy | hy
        · subst hy
          exact le_trans (le_max_right ..) (ih (max x y) (max x y) (Or.inl rfl))
        · exact ih (max x a) y (Or.inr hy)

theorem foldl_max_mem (l : List Int) (x : Int) :
    l.foldl max x = x ∨ l.foldl max x ∈ l := by
  induction l generalizing x with
  | nil => exact Or.inl rfl
  | cons a t ih =>
      simp only [List.foldl_cons]
      rcases ih (max x a) with h | h
      · rcases max_choice x a with hc | hc
        · exact Or.inl (h.trans hc)
        · exact Or.inr (by rw [h, hc]; exact List.mem_cons_self ..)
      · exact Or.inr (List.mem_cons_of_mem _ h)

/-- C6: when at least one all-day event is present, `_merge_all_day_events`
returns exactly one synthetic summary event first — source `"merged"`,
`all_day` set, `start`/`end` spanning the min/max over the all-day inputs,
title `"All-day: "` followed by the non-empty trimmed all-day titles joined by
`" • "` in case-insensitively sorted order (or `"All-day events"` when no
titles survive trimming) — followed by the timed events in display-sorted
order. -/
theorem c6_merge_all_day_summary (events : List Event)
    (h : ∃ e ∈ events, e.all_day = true) :
    ∃ m rest, merge_all_day_events events = m :: rest ∧
      m.source = "merged" ∧ m.all_day = true ∧
      (m.start ∈ (events.filter (fun e => e.all_day)).map Event.start ∧
        ∀ s ∈ (events.filter (fun e => e.all_day)).map Event.start, m.start ≤ s) ∧
      (m.«end» ∈ (events.filter (fun e => e.all_day)).map Event.«end» ∧
        ∀ s ∈ (events.filter (fun e => e.all_day)).map Event.«end», s ≤ m.«end») ∧
      (((events.filter (fun e => e.all_day)).map (fun e => pyStrip e.title)).filter
          (fun t => t ≠ "") = [] → m.title = "All-day events") ∧
      (((events.filter (fun e => e.all_day)).map (fun e => pyStrip e.title)).filter
          (fun t => t ≠ "") ≠ [] →
        ∃ ts, ts.Perm (((events.filter (fun e => e.all_day)).map
            (fun e => pyStrip e.title)).filter (fun t => t ≠ "")) ∧
          ts.Pairwise (fun s t => titleKeyLe s t = true) ∧
          m.title = "All-day: " ++ joinBullet ts) ∧
      rest.Perm (events.filter (fun e => !e.all_day)) ∧
      rest.Pairwise (fun a b => event_sort_le a b = true) := by
  cases hf : events.filter (fun e => e.all_day) with
  | nil =>
      exfalso
      obtain ⟨e, he, hall⟩ := h
      have : e ∈ events.filter (fun e => e.all_day) := List.mem_filter.mpr ⟨he, hall⟩
      rw [hf] at this
      simp at this
  | cons a as =>
      have hunfold : merge_all_day_events events =
          ({ source := "merged"
             title :=
               if pySorted titleKeyLe (((a :: as).map (fun e => pyStrip e.title)).filter
                   (fun t => t ≠ "")) = [] then "All-day events"
               else "All-day: " ++ joinBullet (pySorted titleKeyLe
                 (((a :: as).map (fun e => pyStrip e.title)).filter (fun t => t ≠ "")))
             start := as.foldl (fun m e => min m e.start) a.start
             «end» := as.foldl (fun m e => max m e.«end») a.«end»
             all_day := true } : Event) ::
            pySorted event_sort_le (events.filter (fun e => !e.all_day)) := by
        unfold merge_all_day_events
        rw [hf]
      rw [hunfold]
      refine ⟨_, _, rfl, rfl, rfl, ?_, ?_, ?_, ?_, ?_, ?_⟩
      · constructor
        · simp only [List.map_cons]
          rw [← List.foldl_map Event.start min as a.start]
          rcases foldl_min_mem (as.map Event.start) a.start with hm | hm
          · rw [hm]; exact List.mem_cons_self ..
          · exact List.mem_cons_of_mem _ hm
        · intro s hs
          simp only [List.map_cons, List.mem_cons] at hs
          rw [← List.foldl_map Event.start min as a.start]
          exact foldl_min_le (as.map Event.start) a.start s (by tauto)
      · constructor
        · simp only [List.map_cons]
          rw [← List.foldl_map Event.«end» max as a.«end»]
          rcases foldl_max_mem (as.map Event.«end») a.«end» with hm | hm
          · rw [hm]; exact List.mem_cons_self ..
          · exact List.mem_cons_of_mem _ hm
        · intro s hs
          simp only [List.map_cons, List.mem_cons] at hs
          rw [← List.foldl_map Event.«end» max as a.«end»]
          exact foldl_max_le (as.map Event.«end») a.«end» s (by tauto)
      · intro hempty
        rw [hempty]
        simp [pySorted]
      · intro hnonempty
        refine ⟨pySorted titleKeyLe (((a :: as).map (fun e => pyStrip e.title)).filter
          (fun t => t ≠ "")), perm_pySorted .., pairwise_pySorted titleKeyLe_total
            (fun x y z => titleKeyLe_trans x y z) _, ?_⟩
        rw [if_neg ?_]
        intro hps
        apply hnonempty
        have := (perm_pySorted titleKeyLe (((a :: as).map (fun e => pyStrip e.title)).filter
          (fun t => t ≠ ""))).symm
        rw [hps] at this
        exact List.Perm.eq_nil this
      · exact perm_pySorted ..
      · exact pairwise_pySorted event_sort_le_total event_sort_le_trans _

/-- Concrete input for the C6 witness: the spec's `["Zeta", "alpha"]` example
plus one timed event. -/
def c6WitnessEvents : List Event :=
  [{ source := "google", title := "Zeta", start := 100, «end» := 200, all_day := true },
   { source := "icloud", title := "alpha", start := 50, «end» := 150, all_day := true },
   { source := "google", title := "Timed", start := 75, «end» := 80 }]

/-- C6 (witness): the summary theorem applied to the spec's example input. -/
theorem c6_witness :
    (∃ e ∈ c6WitnessEvents, e.all_day = true) ∧
    (∃ m rest, merge_all_day_events c6WitnessEvents = m :: rest ∧
      m.source = "merged" ∧ m.all_day = true ∧
      (m.start ∈ (c6WitnessEvents.filter (fun e => e.all_day)).map Event.start ∧
        ∀ s ∈ (c6WitnessEvents.filter (fun e => e.all_day)).map Event.start, m.start ≤ s) ∧
      (m.«end» ∈ (c6WitnessEvents.filter (fun e => e.all_day)).map Event.«end» ∧
        ∀ s ∈ (c6WitnessEvents.filter (fun e => e.all_day)).map Event.«end», s ≤ m.«end») ∧
      (((c6WitnessEvents.filter (fun e => e.all_day)).map (fun e => pyStrip e.title)).filter
          (fun t => t ≠ "") = [] → m.title = "All-day events") ∧
      (((c6WitnessEvents.filter (fun e => e.all_day)).map (fun e => pyStrip e.title)).filter
          (fun t => t ≠ "") ≠ [] →
        ∃ ts, ts.Perm (((c6WitnessEvents.filter (fun e => e.all_day)).map
            (fun e => pyStrip e.title)).filter (fun t => t ≠ "")) ∧
          ts.Pairwise (fun s t => titleKeyLe s t = true) ∧
          m.title = "All-day: " ++ joinBullet ts) ∧
      rest.Perm (c6WitnessEvents.filter (fun e => !e.all_day)) ∧
      rest.Pairwise (fun a b => event_sort_le a b = true)) :=
  ⟨by decide, c6_merge_all_day_summary c6WitnessEvents (by decide)⟩

/-! ### Travel-time annotation (`_apply_travel_times`) -/

/-- Model of `travel.TravelEstimate`. -/
structure TravelEstimate where
  minutes : Int
  text : String
deriving DecidableEq, Repr

/-- The origin selection of `_apply_travel_times` (lines 139–143): normally the
configured origin address; the previous timed event's location instead when
that event exists, the gap `event.start - previous.end` is within the
back-to-back window, and the previous location is truthy. -/
def travelOriginFor (origin_address : String) (back_to_back_window_minutes : Int)
    (prev : Option Event) (e : Event) : String :=
  match prev with
  | some p =>
      if e.start - p.«end» ≤ back_to_back_window_minutes * 60 ∧ pyTruthy p.location = true
      then p.location.getD ""
      else origin_address
  | none => origin_address

/-- The travel-text computation of `_apply_travel_times` (lines 145–149): only
for events with a truthy location, and only when the resolver returns an
estimate. -/
def travelTextFor (est : String → String → Option TravelEstimate)
    (origin : String) (e : Event) : Option String :=
  if pyTruthy e.location = true then
    match est origin (e.location.getD "") with
    | some t => some ("Travel: " ++ t.text)
    | none => none
  else none

/-- The `Event(...)` reconstruction of `_apply_travel_times` (lines 151–161):
all non-weather fields are copied, `travel_time_text` is set, and the weather
fields revert to their defaults (`None`). -/
def travelReset (e : Event) (tt : Option String) : Event :=
  { source := e.source
    title := e.title
    start := e.start
    «end» := e.«end»
    all_day := e.all_day
    location := e.location
    travel_time_text := tt }

/-- The loop of `_apply_travel_times`, carrying `previous_timed_event`.  The
resolver is an external collaborator (network call plus per-run memoisation),
modelled as the function parameter `est`, deterministic within a run and never
raising (`none` means no estimate). -/
def travelLoop (est : String → String → Option TravelEstimate)
    (origin_address : String) (back_to_back_window_minutes : Int) :
    Option Event → List Event → List Event
  | _, [] => []
  | prev, event :: rest =>
      if event.all_day then
        event :: travelLoop est origin_address back_to_back_window_minutes prev rest
      else
        travelReset event
            (travelTextFor est
              (travelOriginFor origin_address back_to_back_window_minutes prev event)
              event) ::
          travelLoop est origin_address back_to_back_window_minutes (some event) rest

/-- Model of `_apply_travel_times`: no-op on an empty (falsy) origin address. -/
def apply_travel_times (est : String → String → Option TravelEstimate)
    (origin_address : String) (back_to_back_window_minutes : Int)
    (events : List Event) : List Event :=
  if origin_address = "" then events
  else travelLoop est origin_address back_to_back_window_minutes none events

/-- The last timed event of a list, if any: the "immediately preceding timed
event" of C7 when applied to the prefix before the current position. -/
def lastTimed (l : List Event) : Option Event :=
  (l.filter (fun e => !e.all_day)).getLast?

theorem lastTimed_cons_or (e : Event) (l : List Event) (prev : Option Event) :
    Option.or (lastTimed (e :: l)) prev =
      Option.or (lastTimed l) (if e.all_day then prev else some e) := by
  unfold lastTimed
  cases had : e.all_day with
  | true =>
      rw [List.filter_cons_of_neg (by simp [had]), if_pos rfl]
  | false =>
      rw [List.filter_cons_of_pos (by simp [had]), if_neg (by simp)]
      cases hfl : l.filter (fun e => !e.all_day) with
      | nil => rfl
      | cons f fs =>
          rw [List.getLast?_cons_cons]
          have hsome : (f :: fs).getLast? = some ((f :: fs).getLast (by simp)) :=
            List.getLast?_eq_getLast ..
          rw [hsome]
          rfl

theorem travelLoop_length (est : String → String → Option TravelEstimate)
    (origin_address : String) (w : Int) (l : List Event) :
    ∀ prev, (travelLoop est origin_address w prev l).length = l.length := by
  induction l with
  | nil => intro prev; rfl
  | cons e rest ih =>
      intro prev
      rw [travelLoop]
      split
      · simp [ih]
      · simp [ih]

theorem travelLoop_spec (est : String → String → Option TravelEstimate)
    (origin_address : String) (w : Int) (l : List Event) :
    ∀ (prev : Option Event) (i : Nat), i < l.length →
      (travelLoop est origin_address w prev l).getD i default =
        (if (l.getD i default).all_day then l.getD i default
         else travelReset (l.getD i default)
           (travelTextFor est
             (travelOriginFor origin_address w
               (Option.or (lastTimed (l.take i)) prev) (l.getD i default))
             (l.getD i default))) := by
  induction l with
  | nil =>
      intro prev i hi
      simp at hi
  | cons e rest ih =>
      intro prev i hi
      cases i with
      | zero =>
          rw [travelLoop]
          cases had : e.all_day with
          | true => simp [had]
          | false =>
              simp only [List.take_zero]
              rw [if_neg (by simp [had])]
              simp [had, lastTimed]
      | succ n =>
          have hn : n < rest.length := by simpa using hi
          rw [travelLoop]
          have hkey : Option.or (lastTimed ((e :: rest).take (n + 1))) prev =
              Option.or (lastTimed (rest.take n)) (if e.all_day then prev else some e) := by
            rw [List.take_succ_cons, lastTimed_cons_or]
          cases had : e.all_day with
          | true =>
              rw [if_pos rfl]
              simp only [List.getD_cons_succ]
              rw [ih prev n hn, hkey, if_pos had]
          | false =>
              rw [if_neg (by simp [had])]
              simp only [List.getD_cons_succ]
              rw [ih (some e) n hn, hkey, had]
              simp

/-- C7: with a non-empty origin address, `_apply_travel_times` preserves
length, passes all-day events through untouched, and annotates each timed
event using as travel origin the immediately preceding timed event's location
exactly when such an event exists, its location is truthy, and the start-end
gap is within the back-to-back window — otherwise the configured origin
address; the annotation itself is made only for events with a location and
only when the resolver returns an estimate. -/
theorem c7_travel_origin_chaining (est : String → String → Option TravelEstimate)
    (origin_address : String) (w : Int) (events : List Event)
    (hor : origin_address ≠ "") (i : Nat) (hi : i < events.length) :
    (apply_travel_times est origin_address w events).length = events.length ∧
    ((events.getD i default).all_day = true →
      (apply_travel_times est origin_address w events).getD i default =
        events.getD i default) ∧
    ((events.getD i default).all_day = false →
      (apply_travel_times est origin_address w events).getD i default =
        travelReset (events.getD i default)
          (travelTextFor est
            (travelOriginFor origin_address w (lastTimed (events.take i))
              (events.getD i default))
            (events.getD i default))) := by
  unfold apply_travel_times
  rw [if_neg hor]
  refine ⟨travelLoop_length .., ?_, ?_⟩
  · intro had
    rw [travelLoop_spec est origin_address w events none i hi, if_pos had]
  · intro had
    rw [travelLoop_spec est origin_address w events none i hi,
      if_neg (by simp only [had]; decide), Option.or_none]

/-- C7 (witness): the characterization applied to a concrete schedule — a
back-to-back pair (gap 10 min ≤ 30 min window) chains the origin to the
previous location. -/
theorem c7_witness :
    (("Home" : String) ≠ "") ∧ ((1 : Nat) < 2) ∧
    (apply_travel_times
        (fun o d => some { minutes := 12, text := o ++ "->" ++ d }) "Home" 30
        [{ source := "google", title := "A", start := 0, «end» := 3600,
           location := some "Office" },
         { source := "google", title := "B", start := 4200, «end» := 7200,
           location := some "Cafe" }]).getD 1 default =
      travelReset
        ({ source := "google", title := "B", start := 4200, «end» := 7200,
           location := some "Cafe" })
        (some "Travel: Office->Cafe") := by
  refine ⟨by decide, by decide, ?_⟩
  have h := (c7_travel_origin_chaining
    (fun o d => some { minutes := 12, text := o ++ "->" ++ d }) "Home" 30
    [{ source := "google", title := "A", start := 0, «end» := 3600,
       location := some "Office" },
     { source := "google", title := "B", start := 4200, «end» := 7200,
       location := some "Cafe" }]
    (by decide) 1 (by decide)).2.2 (by decide)
  rw [h]
  rfl

/-! ### Sleep window (`_is_in_sleep_window`)

`datetime.time` values are modelled as seconds since midnight; the local time
of day of an aware instant in a fixed-offset zone is its Euclidean remainder
modulo one day. -/

/-- Model of `now.timetz().replace(tzinfo=None)`: the local time of day, in
seconds, of instant `t` in a zone with the given offset (minutes). -/
def timeOfDay (offsetMinutes : Int) (t : Int) : Int := (t + offsetMinutes * 60) % 86400

/-- Model of `_is_in_sleep_window(now, start, end)`. -/
def is_in_sleep_window (offsetMinutes : Int) (now : Int) (wstart wend : Int) : Bool :=
  let t := timeOfDay offsetMinutes now
  if wstart < wend then decide (wstart ≤ t ∧ t < wend)
  else decide (t ≥ wstart ∨ t < wend)

/-- C8: for any aware instant, a window with `start < end` matches exactly the
half-open local interval `[start, end)`, and an overnight window with
`start > end` matches exactly "on or after start OR before end"; concretely,
for the 22:30→06:30 window, 23:00 and 05:00 are in window and 12:00 is not. -/
theorem c8_sleep_window_halfopen_and_wraparound (off now wstart wend : Int) :
    (wstart < wend →
      (is_in_sleep_window off now wstart wend = true ↔
        wstart ≤ timeOfDay off now ∧ timeOfDay off now < wend)) ∧
    (wend < wstart →
      (is_in_sleep_window off now wstart wend = true ↔
        timeOfDay off now ≥ wstart ∨ timeOfDay off now < wend)) ∧
    is_in_sleep_window 0 (23 * 3600) (22 * 3600 + 1800) (6 * 3600 + 1800) = true ∧
    is_in_sleep_window 0 (5 * 3600) (22 * 3600 + 1800) (6 * 3600 + 1800) = true ∧
    is_in_sleep_window 0 (12 * 3600) (22 * 3600 + 1800) (6 * 3600 + 1800) = false := by
  refine ⟨?_, ?_, by decide, by decide, by decide⟩
  · intro h
    rw [is_in_sleep_window]
    simp only [if_pos h, decide_eq_true_eq]
  · intro h
    rw [is_in_sleep_window]
    simp only [if_neg (by omega : ¬ wstart < wend), decide_eq_true_eq]

/-- C8 (witness): both directions of the characterization discharged at
concrete instants — an in-interval daytime window and the overnight window. -/
theorem c8_witness :
    (((2 : Int) < 5) ∧
      (is_in_sleep_window 0 3 2 5 = true ↔
        (2 : Int) ≤ timeOfDay 0 3 ∧ timeOfDay 0 3 < 5)) ∧
    (((100 : Int) < 2000) ∧
      (is_in_sleep_window 0 2500 2000 100 = true ↔
        timeOfDay 0 2500 ≥ 2000 ∨ timeOfDay 0 2500 < 100)) :=
  ⟨⟨by decide, (c8_sleep_window_halfopen_and_wraparound 0 3 2 5).1 (by decide)⟩,
   ⟨by decide, (c8_sleep_window_halfopen_and_wraparound 0 2500 2000 100).2.1 (by decide)⟩⟩

/-- C10: when the configured window start equals its end, the window is total
(always asleep), not empty: the `start < end` test fails, so the wraparound
branch `t >= start or t < end` is taken, which is a tautology for equal
bounds. -/
theorem c10_equal_bounds_window_total (off now s : Int) :
    is_in_sleep_window off now s s = true := by
  rw [is_in_sleep_window]
  simp only [if_neg (lt_irrefl s), decide_eq_true_eq]
  omega

/-! ### Change-detection signature (`_events_signature`)

The serialization models `json.dumps(payload, sort_keys=True,
ensure_ascii=False)`: objects are rendered with their keys in sorted order
(hard-coded per payload shape, since the key sets are fixed), separators
`", "` and `": "`, strings quote-delimited and escaped, booleans as
`true`/`false`, `None` as `null`, integers in decimal. -/

/-- Model of `dt.astimezone(tz).isoformat()` for an aware instant in a
fixed-offset zone: deterministic in `(zone, instant)` and injective in the
instant for a fixed zone — exactly the properties of the real ISO-8601
rendering; the calendar formatting of the datetime library is abstracted to
a decimal rendering of the zone-shifted timestamp plus the offset. -/
def isoformatTz (offsetMinutes : Int) (t : Int) : String :=
  String.mk (intRepr (t + offsetMinutes * 60) ++ '@' :: intRepr offsetMinutes)

theorem isoformatTz_injective {off s t : Int}
    (h : isoformatTz off s = isoformatTz off t) : s = t := by
  unfold isoformatTz at h
  have h2 := List.append_cancel_right (string_mk_inj h)
  have h3 := intRepr_injective h2
  omega

/-- JSON string escaping of one character.  The json library escapes the
quote, the backslash and control characters (`\n`, `\uXXXX`, ...); the model
escapes quote and backslash — the part that matters: both renderings are
injective and deterministic, and no claim depends on the concrete rendering
of control characters. -/
def escChar (c : Char) : List Char :=
  if c = '"' ∨ c = '\\' then ['\\', c] else [c]

/-- Escape a whole string body. -/
def escList : List Char → List Char
  | [] => []
  | c :: rest => escChar c ++ escList rest

/-- A JSON string literal: quote, escaped body, quote. -/
def encStr (s : String) : List Char := '"' :: (escList s.data ++ ['"'])

/-- JSON booleans. -/
def encBool (b : Bool) : List Char := if b then "true".data else "false".data

/-- JSON rendering of `Optional[int]`. -/
def encOptInt : Option Int → List Char
  | none => "null".data
  | some i => intRepr i

/-- JSON rendering of `Optional[bool]`. -/
def encOptBool : Option Bool → List Char
  | none => "null".data
  | some b => encBool b

/-- The per-event dict built by `_event_payload` (main.py lines 315–324):
exactly the render-relevant fields — the six weather annotation fields are
omitted — with `start`/`end` rendered in the target timezone and falsy
location / travel text coerced to `""`. -/
structure EventPayload where
  source : String
  title : String
  start : String
  «end» : String
  all_day : Bool
  location : String
  travel_time_text : String
deriving DecidableEq, Repr

/-- `_event_payload(e)`. -/
def event_payload (tzOffsetMinutes : Int) (e : Event) : EventPayload :=
  { source := e.source
    title := e.title
    start := isoformatTz tzOffsetMinutes e.start
    «end» := isoformatTz tzOffsetMinutes e.«end»
    all_day := e.all_day
    location := e.location.getD ""
    travel_time_text := e.travel_time_text.getD "" }

/-- Typed model of the `get_ups_status()` dict (`network.get_ups_status`):
keys `present` (bool), `status` (str), `capacity` (int or None), `online`
(bool or None); `ups_payload` in `_events_signature` reads exactly these keys
with these defaults, so it is the identity on this typed model. -/
structure UpsStatus where
  present : Bool
  status : String
  capacity : Option Int
  online : Option Bool
deriving DecidableEq, Repr

/-- Modelled from the spec: `WeatherAlert` is imported by `main.py` from
`weather.py` but its definition is missing from `src/`; per spec §6,
`active_alerts()` yields items carrying a `headline` string, which is the
only field the signature (and renderer) uses. -/
structure WeatherAlert where
  headline : String
deriving DecidableEq, Repr

/-- JSON object for one event, keys in sorted order
(`all_day, end, location, source, start, title, travel_time_text`). -/
def encEventPayload (p : EventPayload) : List Char :=
  "\x7b\"all_day\": ".data ++ encBool p.all_day ++
  ", \"end\": ".data ++ encStr p.«end» ++
  ", \"location\": ".data ++ encStr p.location ++
  ", \"source\": ".data ++ encStr p.source ++
  ", \"start\": ".data ++ encStr p.start ++
  ", \"title\": ".data ++ encStr p.title ++
  ", \"travel_time_text\": ".data ++ encStr p.travel_time_text ++
  "\x7d".data

/-- JSON list body: items joined by `", "`. -/
def encListInner {β : Type} (encF : β → List Char) : List β → List Char
  | [] => []
  | [x] => encF x
  | x :: y :: xs => encF x ++ ", ".data ++ encListInner encF (y :: xs)

/-- JSON list: bracketed body. -/
def encListWith {β : Type} (encF : β → List Char) (l : List β) : List Char :=
  '[' :: (encListInner encF l ++ [']'])

/-- JSON object for the UPS payload, keys in sorted order
(`capacity, online, present, status`). -/
def encUps (u : UpsStatus) : List Char :=
  "\x7b\"capacity\": ".data ++ encOptInt u.capacity ++
  ", \"online\": ".data ++ encOptBool u.online ++
  ", \"present\": ".data ++ encBool u.present ++
  ", \"status\": ".data ++ encStr u.status ++
  "\x7d".data

/-- The full signature payload, keys in sorted order (`events, header_date,
sleep_banner, tomorrow_events, ups_status, weather_alerts, wifi_status`). -/
def encTopPayload (eventPayloads tomorrowPayloads : List EventPayload)
    (alertHeadlines : List String) (header_date : String) (sleep_banner : Bool)
    (wifi_status : String) (ups : UpsStatus) : List Char :=
  "\x7b\"events\": ".data ++ encListWith encEventPayload eventPayloads ++
  ", \"header_date\": ".data ++ encStr header_date ++
  ", \"sleep_banner\": ".data ++ encBool sleep_banner ++
  ", \"tomorrow_events\": ".data ++ encListWith encEventPayload tomorrowPayloads ++
  ", \"ups_status\": ".data ++ encUps ups ++
  ", \"weather_alerts\": ".data ++ encListWith encStr alertHeadlines ++
  ", \"wifi_status\": ".data ++ encStr wifi_status ++
  "\x7d".data

/-- Model of `hashlib.sha256(b).hexdigest()`: the cryptographic digest is
idealized as an injective, deterministic function of the serialized payload —
collision-free, which is precisely the property the spec relies on ("no
accidental collisions"); the model returns the serialized payload itself. -/
def sha256_hexdigest (payload : List Char) : String := String.mk payload

/-- Model of `_events_signature` (main.py lines 304–342). -/
def events_signature (tzOffsetMinutes : Int) (events tomorrow_events : List Event)
    (weather_alerts : List WeatherAlert) (header_date : String) (sleep_banner : Bool)
    (wifi_status : String) (ups_status : UpsStatus) : String :=
  sha256_hexdigest (encTopPayload
    (events.map (event_payload tzOffsetMinutes))
    (tomorrow_events.map (event_payload tzOffsetMinutes))
    (weather_alerts.map (fun a => a.headline))
    header_date sleep_banner wifi_status ups_status)

/-! ### C1: the signature ignores the weather annotation fields -/

/-- Agreement of two events on every field except the six weather annotation
fields. -/
def nonWeatherEq (a b : Event) : Bool :=
  a.source == b.source && a.title == b.title && a.start == b.start &&
  a.«end» == b.«end» && a.all_day == b.all_day && a.location == b.location &&
  a.travel_time_text == b.travel_time_text

theorem event_payload_congr {tz : Int} {a b : Event} (h : nonWeatherEq a b = true) :
    event_payload tz a = event_payload tz b := by
  simp only [nonWeatherEq, Bool.and_eq_true, beq_iff_eq] at h
  obtain ⟨⟨⟨⟨⟨⟨h1, h2⟩, h3⟩, h4⟩, h5⟩, h6⟩, h7⟩ := h
  simp [event_payload, h1, h2, h3, h4, h5, h6, h7]

theorem getD_eq_getElem {α : Type} {l : List α} {i : Nat} (h : i < l.length) (d : α) :
    l.getD i d = l[i] := by
  simp [List.getD_eq_getElem?_getD, List.getElem?_eq_getElem h]

theorem map_payload_congr {tz : Int} {es es' : List Event}
    (hlen : es.length = es'.length)
    (hpw : ∀ i, i < es.length →
      nonWeatherEq (es.getD i default) (es'.getD i default) = true) :
    es.map (event_payload tz) = es'.map (event_payload tz) := by
  apply List.ext_getElem (by simp [hlen])
  intro i h1 h2
  simp only [List.getElem_map]
  apply event_payload_congr
  have hi : i < es.length := by simpa using h1
  have hi' : i < es'.length := by simpa using h2
  have := hpw i hi
  rwa [getD_eq_getElem hi, getD_eq_getElem hi'] at this

/-- C1: two event lists whose events agree pairwise on every field except the
weather annotation fields (with all other signature inputs identical) hash to
the same digest — weather-only changes never alter the signature. -/
theorem c1_signature_ignores_weather (tz : Int) (es es' tom : List Event)
    (al : List WeatherAlert) (hd : String) (sb : Bool) (wf : String) (ups : UpsStatus)
    (hlen : es.length = es'.length)
    (hpw : ∀ i, i < es.length →
      nonWeatherEq (es.getD i default) (es'.getD i default) = true) :
    events_signature tz es tom al hd sb wf ups =
      events_signature tz es' tom al hd sb wf ups := by
  unfold events_signature
  rw [map_payload_congr hlen hpw]

/-- C1 (witness): adding weather annotations to an event leaves the digest
unchanged. -/
theorem c1_witness :
    events_signature 0
        [{ source := "google", title := "A", start := 0, «end» := 3600,
           location := some "HQ" }]
        [] [] "Mon" false "connected"
        { present := false, status := "", capacity := none, online := none } =
      events_signature 0
        [{ source := "google", title := "A", start := 0, «end» := 3600,
           location := some "HQ", weather_icon := some "☀",
           weather_text := some "71°F", weather_temperature_f := some 71,
           weather_end_icon := some "☁", weather_end_text := some "69°F",
           weather_end_temperature_f := some 69 }]
        [] [] "Mon" false "connected"
        { present := false, status := "", capacity := none, online := none } :=
  c1_signature_ignores_weather 0 _ _ [] [] "Mon" false "connected"
    { present := false, status := "", capacity := none, online := none }
    (by decide) (by decide)

/-! ### Unique decodability of the serialized payload (towards C2) -/

theorem escList_peel : ∀ (x y r₁ r₂ : List Char),
    escList x ++ '"' :: r₁ = escList y ++ '"' :: r₂ → x = y ∧ r₁ = r₂ := by
  intro x
  induction x with
  | nil =>
      intro y r₁ r₂ h
      cases y with
      | nil =>
          simp only [escList, List.nil_append] at h
          exact ⟨rfl, (List.cons.injEq .. ▸ h).2⟩
      | cons d ds =>
          simp only [escList, List.nil_append, List.append_assoc] at h
          by_cases hd : d = '"' ∨ d = '\\'
          · rw [escChar, if_pos hd] at h
            simp only [List.cons_append] at h
            have := (List.cons.injEq .. ▸ h).1
            exact absurd this (by decide)
          · rw [escChar, if_neg hd] at h
            simp only [List.cons_append, List.nil_append] at h
            have := (List.cons.injEq .. ▸ h).1
            exact absurd this.symm (by push_neg at hd; exact hd.1)
  | cons c cs ih =>
      intro y r₁ r₂ h
      cases y with
      | nil =>
          simp only [escList, List.nil_append, List.append_assoc] at h
          by_cases hc : c = '"' ∨ c = '\\'
          · rw [escChar, if_pos hc] at h
            simp only [List.cons_append] at h
            have := (List.cons.injEq .. ▸ h).1
            exact absurd this (by decide)
          · rw [escChar, if_neg hc] at h
            simp only [List.cons_append, List.nil_append] at h
            have := (List.cons.injEq .. ▸ h).1
            exact absurd this (by push_neg at hc; exact hc.1)
      | cons d ds =>
          simp only [escList, List.append_assoc] at h
          by_cases hc : c = '"' ∨ c = '\\' <;> by_cases hd : d = '"' ∨ d = '\\'
          · rw [escChar, escChar, if_pos hc, if_pos hd] at h
            simp only [List.cons_append] at h
            have h1 := (List.cons.injEq .. ▸ h).2
            have hcd := (List.cons.injEq .. ▸ h1).1
            have h2 := (List.cons.injEq .. ▸ h1).2
            obtain ⟨hxy, hr⟩ := ih ds r₁ r₂ (by simpa using h2)
            exact ⟨by rw [hcd, hxy], hr⟩
          · rw [escChar, escChar, if_pos hc, if_neg hd] at h
            simp only [List.cons_append, List.nil_append] at h
            have hcd := (List.cons.injEq .. ▸ h).1
            have : d = '\\' := hcd.symm
            exact absurd (Or.inr this) hd
          · rw [escChar, escChar, if_neg hc, if_pos hd] at h
            simp only [List.cons_append, List.nil_append] at h
            have hcd := (List.cons.injEq .. ▸ h).1
            have : c = '\\' := hcd
            exact absurd (Or.inr this) hc
          · rw [escChar, escChar, if_neg hc, if_neg hd] at h
            simp only [List.cons_append, List.nil_append] at h
            have hcd := (List.cons.injEq .. ▸ h).1
            have h2 := (List.cons.injEq .. ▸ h).2
            obtain ⟨hxy, hr⟩ := ih ds r₁ r₂ (by simpa using h2)
            exact ⟨by rw [hcd, hxy], hr⟩

theorem string_data_inj {s t : String} (h : s.data = t.data) : s = t := by
  rw [← string_mk_data s, ← string_mk_data t, h]

theorem encStr_peel {s₁ s₂ : String} {r₁ r₂ : List Char}
    (h : encStr s₁ ++ r₁ = encStr s₂ ++ r₂) : s₁ = s₂ ∧ r₁ = r₂ := by
  unfold encStr at h
  simp only [List.cons_append, List.append_assoc, List.singleton_append] at h
  have h2 := (List.cons.injEq .. ▸ h).2
  obtain ⟨hdata, hr⟩ := escList_peel _ _ _ _ h2
  exact ⟨string_data_inj hdata, hr⟩

theorem encBool_peel {b₁ b₂ : Bool} {r₁ r₂ : List Char}
    (h : encBool b₁ ++ r₁ = encBool b₂ ++ r₂) : b₁ = b₂ ∧ r₁ = r₂ := by
  have etrue : encBool true = ['t', 'r', 'u', 'e'] := rfl
  have efalse : encBool false = ['f', 'a', 'l', 's', 'e'] := rfl
  cases b₁ <;> cases b₂
  · rw [efalse] at h
    exact ⟨rfl, List.append_cancel_left h⟩
  · rw [efalse, etrue] at h
    simp only [List.cons_append, List.nil_append] at h
    exact absurd (List.cons.injEq .. ▸ h).1 (by decide)
  · rw [etrue, efalse] at h
    simp only [List.cons_append, List.nil_append] at h
    exact absurd (List.cons.injEq .. ▸ h).1 (by decide)
  · rw [etrue] at h
    exact ⟨rfl, List.append_cancel_left h⟩

theorem encEventPayload_peel {p q : EventPayload} {r₁ r₂ : List Char}
    (h : encEventPayload p ++ r₁ = encEventPayload q ++ r₂) : p = q ∧ r₁ = r₂ := by
  unfold encEventPayload at h
  simp only [List.append_assoc] at h
  have h1 := List.append_cancel_left h
  obtain ⟨hb, h2⟩ := encBool_peel h1
  have h3 := List.append_cancel_left h2
  obtain ⟨hend, h4⟩ := encStr_peel h3
  have h5 := List.append_cancel_left h4
  obtain ⟨hloc, h6⟩ := encStr_peel h5
  have h7 := List.append_cancel_left h6
  obtain ⟨hsrc, h8⟩ := encStr_peel h7
  have h9 := List.append_cancel_left h8
  obtain ⟨hst, h10⟩ := encStr_peel h9
  have h11 := List.append_cancel_left h10
  obtain ⟨hti, h12⟩ := encStr_peel h11
  have h13 := List.append_cancel_left h12
  obtain ⟨htr, h14⟩ := encStr_peel h13
  refine ⟨?_, List.append_cancel_left h14⟩
  cases p
  cases q
  simp_all

theorem encEventPayload_head (p : EventPayload) :
    ∃ t, encEventPayload p = '\x7b' :: t := by
  exact ⟨_, rfl⟩

theorem encEventList_inner_peel : ∀ (l₁ l₂ : List EventPayload) (r₁ r₂ : List Char),
    encListInner encEventPayload l₁ ++ ']' :: r₁ =
      encListInner encEventPayload l₂ ++ ']' :: r₂ → l₁ = l₂ ∧ r₁ = r₂ := by
  intro l₁
  induction l₁ with
  | nil =>
      intro l₂ r₁ r₂ h
      cases l₂ with
      | nil =>
          simp only [encListInner, List.nil_append] at h
          exact ⟨rfl, (List.cons.injEq .. ▸ h).2⟩
      | cons y ys =>
          exfalso
          obtain ⟨t, ht⟩ := encEventPayload_head y
          cases ys with
          | nil =>
              simp only [encListInner, List.nil_append, ht, List.cons_append] at h
              exact absurd (List.cons.injEq .. ▸ h).1 (by decide)
          | cons y₂ ys' =>
              simp only [encListInner, List.nil_append, ht, List.cons_append,
                List.append_assoc] at h
              exact absurd (List.cons.injEq .. ▸ h).1 (by decide)
  | cons x xs ih =>
      intro l₂ r₁ r₂ h
      cases l₂ with
      | nil =>
          exfalso
          obtain ⟨t, ht⟩ := encEventPayload_head x
          cases xs with
          | nil =>
              simp only [encListInner, List.nil_append, ht, List.cons_append] at h
              exact absurd (List.cons.injEq .. ▸ h).1 (by decide)
          | cons x₂ xs' =>
              simp only [encListInner, List.nil_append, ht, List.cons_append,
                List.append_assoc] at h
              exact absurd (List.cons.injEq .. ▸ h).1 (by decide)
      | cons y ys =>
          cases xs with
          | nil =>
              cases ys with
              | nil =>
                  simp only [encListInner] at h
                  obtain ⟨hxy, hr⟩ := encEventPayload_peel h
                  exact ⟨by rw [hxy], (List.cons.injEq .. ▸ hr).2⟩
              | cons y₂ ys' =>
                  exfalso
                  simp only [encListInner, List.append_assoc] at h
                  obtain ⟨-, hr⟩ := encEventPayload_peel h
                  simp only [List.cons_append, List.nil_append] at hr
                  exact absurd (List.cons.injEq .. ▸ hr).1 (by decide)
          | cons x₂ xs' =>
              cases ys with
              | nil =>
                  exfalso
                  simp only [encListInner, List.append_assoc] at h
                  obtain ⟨-, hr⟩ := encEventPayload_peel h
                  simp only [List.cons_append, List.nil_append] at hr
                  exact absurd (List.cons.injEq .. ▸ hr).1 (by decide)
              | cons y₂ ys' =>
                  simp only [encListInner, List.append_assoc] at h
                  obtain ⟨hxy, hr⟩ := encEventPayload_peel h
                  simp only [List.cons_append, List.nil_append] at hr
                  have hr2 := (List.cons.injEq .. ▸ hr).2
                  have hr3 := (List.cons.injEq .. ▸ hr2).2
                  obtain ⟨htail, hrr⟩ := ih (y₂ :: ys') r₁ r₂ hr3
                  exact ⟨by rw [hxy, htail], hrr⟩

theorem encEventList_inj {l₁ l₂ : List EventPayload}
    (h : encListWith encEventPayload l₁ = encListWith encEventPayload l₂) :
    l₁ = l₂ := by
  unfold encListWith at h
  have h2 := (List.cons.injEq .. ▸ h).2
  have h3 : encListInner encEventPayload l₁ ++ ']' :: [] =
      encListInner encEventPayload l₂ ++ ']' :: [] := by simpa using h2
  exact (encEventList_inner_peel l₁ l₂ [] [] h3).1

theorem encTop_events_inj {ep₁ ep₂ tp : List EventPayload} {al : List String}
    {hd : String} {sb : Bool} {wf : String} {ups : UpsStatus}
    (h : encTopPayload ep₁ tp al hd sb wf ups = encTopPayload ep₂ tp al hd sb wf ups) :
    ep₁ = ep₂ := by
  unfold encTopPayload at h
  simp only [List.append_assoc] at h
  have h1 := List.append_cancel_left h
  exact encEventList_inj (List.append_cancel_right h1)

/-! ### C2: signature sensitivity -/

theorem payload_ne_of_relevant_diff {tz : Int} {a b : Event}
    (hd : a.title ≠ b.title ∨ a.start ≠ b.start ∨ a.«end» ≠ b.«end» ∨
      a.all_day ≠ b.all_day ∨ a.location.getD "" ≠ b.location.getD "" ∨
      a.travel_time_text.getD "" ≠ b.travel_time_text.getD "") :
    event_payload tz a ≠ event_payload tz b := by
  intro he
  rcases hd with h | h | h | h | h | h
  · exact h (congrArg EventPayload.title he)
  · exact h (isoformatTz_injective (congrArg EventPayload.start he))
  · exact h (isoformatTz_injective (congrArg EventPayload.«end» he))
  · exact h (congrArg EventPayload.all_day he)
  · exact h (congrArg EventPayload.location he)
  · exact h (congrArg EventPayload.travel_time_text he)

theorem map_payload_ne_at {tz : Int} {es es' : List Event} {i : Nat}
    (hne : event_payload tz (es.getD i default) ≠ event_payload tz (es'.getD i default)) :
    es.map (event_payload tz) ≠ es'.map (event_payload tz) := by
  intro he
  apply hne
  have h1 := congrArg (fun l => l.getD i (event_payload tz default)) he
  simpa only [list_map_getD] using h1

/-- C2 (counterexample): the claim fails as stated — two signature inputs that
differ in an event's `location` (`None` versus `""`) still hash identically,
because the payload coerces both to `""` (`e.location or ""`). -/
theorem c2_counterexample :
    ({ source := "google", title := "A", start := 0, «end» := 3600,
       location := none : Event }).location ≠
      ({ source := "google", title := "A", start := 0, «end» := 3600,
         location := some "" : Event }).location ∧
    events_signature 0
        [{ source := "google", title := "A", start := 0, «end» := 3600,
           location := none }]
        [] [] "Mon" false "connected"
        { present := false, status := "", capacity := none, online := none } =
      events_signature 0
        [{ source := "google", title := "A", start := 0, «end» := 3600,
           location := some "" }]
        [] [] "Mon" false "connected"
        { present := false, status := "", capacity := none, online := none } :=
  ⟨by decide, rfl⟩

/-- C2 (amended): any difference in an event's title, start, end, all-day
flag, coerced location (`location or ""`), or coerced travel text
(`travel_time_text or ""`) — all other signature inputs equal — produces
different digests (the original claim's `None`-versus-`""` location or travel
cases are the only exceptions, collapsed by the payload coercion); and two
runs whose relevant payload projections are byte-identical produce identical
digests. -/
theorem c2_signature_sensitivity :
    (∀ (tz : Int) (es es' tom : List Event) (al : List WeatherAlert) (hd : String)
        (sb : Bool) (wf : String) (ups : UpsStatus) (i : Nat),
      es.length = es'.length → i < es.length →
      ((es.getD i default).title ≠ (es'.getD i default).title ∨
        (es.getD i default).start ≠ (es'.getD i default).start ∨
        (es.getD i default).«end» ≠ (es'.getD i default).«end» ∨
        (es.getD i default).all_day ≠ (es'.getD i default).all_day ∨
        (es.getD i default).location.getD "" ≠ (es'.getD i default).location.getD "" ∨
        (es.getD i default).travel_time_text.getD "" ≠
          (es'.getD i default).travel_time_text.getD "") →
      events_signature tz es tom al hd sb wf ups ≠
        events_signature tz es' tom al hd sb wf ups) ∧
    (∀ (tz : Int) (es es' tom : List Event) (al : List WeatherAlert) (hd : String)
        (sb : Bool) (wf : String) (ups : UpsStatus),
      es.map (event_payload tz) = es'.map (event_payload tz) →
      events_signature tz es tom al hd sb wf ups =
        events_signature tz es' tom al hd sb wf ups) := by
  constructor
  · intro tz es es' tom al hd sb wf ups i hlen hi hdiff hsig
    unfold events_signature sha256_hexdigest at hsig
    have hmaps := encTop_events_inj (string_mk_inj hsig)
    exact map_payload_ne_at (payload_ne_of_relevant_diff hdiff) hmaps
  · intro tz es es' tom al hd sb wf ups hmaps
    unfold events_signature
    rw [hmaps]

/-- C2 (witness): changing one event's title changes the digest; the
determinism half applied to a weather-only change. -/
theorem c2_witness :
    events_signature 0
        [{ source := "google", title := "A", start := 0, «end» := 3600 }]
        [] [] "Mon" false "connected"
        { present := false, status := "", capacity := none, online := none } ≠
      events_signature 0
        [{ source := "google", title := "B", start := 0, «end» := 3600 }]
        [] [] "Mon" false "connected"
        { present := false, status := "", capacity := none, online := none } :=
  c2_signature_sensitivity.1 0
    [{ source := "google", title := "A", start := 0, «end» := 3600 }]
    [{ source := "google", title := "B", start := 0, «end» := 3600 }]
    [] [] "Mon" false "connected"
    { present := false, status := "", capacity := none, online := none }
    0 (by decide) (by decide) (by decide)

/-! ### Refresh policy (`run_once`, C3)

`run_once` is embedded as a pure function of the run's observable
environment: configuration, the current instant, the already-fetched and
processed event lists, the alert/wifi/UPS probe results.  Its effect is the
returned outcome: whether the display render/show step ran, and the state
that was written to the state file (`none` = no write, state unchanged). -/

/-- Persisted state (`state.State`): `last_rendered_iso` is modelled as the
parsed instant (`none` models the empty string and the unparsable case that
`_should_force_hourly_refresh` maps to "no forced refresh"). -/
structure State where
  last_hash : String
  last_rendered : Option Int
  last_sleep_banner_date : String
deriving DecidableEq, Repr

/-- The observable environment of one run. -/
structure RunEnv where
  tzOffsetMinutes : Int
  now : Int
  sleep_enabled : Bool
  sleep_start : Int
  sleep_end : Int
  events : List Event
  tomorrow_events : List Event
  weather_alerts : List WeatherAlert
  wifi_status : String
  ups_status : UpsStatus
deriving Repr

/-- Outcome of one run: whether the physical render/show step was invoked
and the state written to the state file (`none` = untouched). -/
structure RunOutcome where
  rendered : Bool
  saved : Option State
deriving DecidableEq, Repr

/-- The local calendar day number; both `strftime` date strings of `run_once`
are deterministic, injective renderings of the local date, modelled over
this day number. -/
def localDayNumber (offsetMinutes now : Int) : Int := (now + offsetMinutes * 60) / 86400

/-- Model of `now.strftime("%A, %B %-d, %Y")` (the header date). -/
def header_date_of (offsetMinutes now : Int) : String :=
  String.mk ("date:".data ++ intRepr (localDayNumber offsetMinutes now))

/-- Model of `now.strftime("%Y-%m-%d")` (`today_str`). -/
def today_string (offsetMinutes now : Int) : String :=
  String.mk (intRepr (localDayNumber offsetMinutes now))

/-- Model of `_should_force_hourly_refresh`: false when no parseable
`last_rendered_iso` exists, else whether at least `threshold` seconds have
elapsed. -/
def should_force_hourly_refresh (st : State) (now : Int) (threshold : Int) : Bool :=
  match st.last_rendered with
  | none => false
  | some t => decide (now - t ≥ threshold)

/-- `in_sleep` of `run_once`. -/
def in_sleep_of (env : RunEnv) : Bool :=
  env.sleep_enabled &&
    is_in_sleep_window env.tzOffsetMinutes env.now env.sleep_start env.sleep_end

/-- `should_apply_sleep_banner` of `run_once`: once per local day, when in the
sleep window with sleep enabled. -/
def should_apply_sleep_banner_of (env : RunEnv) (st : State) : Bool :=
  env.sleep_enabled && in_sleep_of env &&
    (st.last_sleep_banner_date ≠ today_string env.tzOffsetMinutes env.now)

/-- `show_banner` of `run_once`. -/
def show_banner_of (env : RunEnv) : Bool := in_sleep_of env && env.sleep_enabled

/-- The signature `run_once` computes for this environment. -/
def run_signature (env : RunEnv) : String :=
  events_signature env.tzOffsetMinutes env.events env.tomorrow_events
    env.weather_alerts (header_date_of env.tzOffsetMinutes env.now)
    (show_banner_of env) env.wifi_status env.ups_status

/-- Model of `run_once` (main.py lines 345–449): sleep suppression, the
render-or-skip decision, and the state write.  Fetching, weather annotation
and rendering consume the environment but do not affect which branch is
taken, so the outcome abstracts them to the `rendered` flag. -/
def run_once (env : RunEnv) (st : State) (force deep_clean : Bool) : RunOutcome :=
  let in_sleep := in_sleep_of env
  let today_str := today_string env.tzOffsetMinutes env.now
  let should_apply_sleep_banner := should_apply_sleep_banner_of env st
  if in_sleep && !should_apply_sleep_banner && !force && !deep_clean then
    { rendered := false, saved := none }
  else
    let sig := run_signature env
    let should_force_hourly := should_force_hourly_refresh st env.now 3600
    if !force && !deep_clean && !should_apply_sleep_banner && !should_force_hourly &&
        sig == st.last_hash then
      { rendered := false, saved := none }
    else
      { rendered := true
        saved := some
          { last_hash := sig
            last_rendered := some env.now
            last_sleep_banner_date :=
              if should_apply_sleep_banner then today_str
              else st.last_sleep_banner_date } }

/-- C3: with `force` and `deep_clean` false, the banner not newly due today,
less than one hour since the persisted last render, and the computed
signature equal to the persisted `last_hash`, `run_once` returns without
invoking the render/show step and without writing the state file, leaving the
persisted state unchanged. -/
theorem c3_refresh_skip (env : RunEnv) (st : State) (t : Int)
    (hbanner : should_apply_sleep_banner_of env st = false)
    (hlast : st.last_rendered = some t)
    (hfresh : env.now - t < 3600)
    (hsig : run_signature env = st.last_hash) :
    run_once env st false false = { rendered := false, saved := none } := by
  unfold run_once
  by_cases hs : (in_sleep_of env && !should_apply_sleep_banner_of env st &&
      !false && !false) = true
  · rw [if_pos hs]
  · rw [if_neg hs]
    have hhourly : should_force_hourly_refresh st env.now 3600 = false := by
      unfold should_force_hourly_refresh
      rw [hlast]
      simp only [decide_eq_false_iff_not]
      omega
    rw [if_pos]
    rw [hbanner, hhourly, hsig]
    simp

/-- C3 (witness): a concrete skip run — sleep disabled, last render 10
minutes ago, persisted hash equal to the computed signature. -/
theorem c3_witness :
    run_once
        { tzOffsetMinutes := 0, now := 600, sleep_enabled := false,
          sleep_start := 81000, sleep_end := 23400,
          events := [{ source := "google", title := "A", start := 0, «end» := 3600 }],
          tomorrow_events := [], weather_alerts := [], wifi_status := "connected",
          ups_status :=
            { present := false, status := "", capacity := none, online := none } }
        { last_hash :=
            run_signature
              { tzOffsetMinutes := 0, now := 600, sleep_enabled := false,
                sleep_start := 81000, sleep_end := 23400,
                events := [{ source := "google", title := "A", start := 0, «end» := 3600 }],
                tomorrow_events := [], weather_alerts := [], wifi_status := "connected",
                ups_status :=
                  { present := false, status := "", capacity := none, online := none } }
          last_rendered := some 0
          last_sleep_banner_date := "" }
        false false = { rendered := false, saved := none } :=
  c3_refresh_skip _ _ 0 (by decide) rfl (by decide) rfl

end Inkycal
